import Mathlib

/-!
# Verification of the AzureML `services.py` publishing subsystem

This file gives a shallow embedding, in Lean 4, of the core of
`azureml/services.py`:

* the typed value codec (`_encode` / `_decode_inner` / `_decode`, lines 127-334),
* the dependency-graph walker and closure serializer
  (`_Serializer.find_globals`, `_Serializer.get_code_args`,
  `_Serializer.serialize`, `_Serializer.serialize_obj`, lines 350-441),
* the closure deserializer (`_deserialize_func`, lines 446-472),
* the remote invocation client (`published._invoke` / `published.map`,
  lines 543-602),

together with theorems settling the specification claims about them.

Modelling conventions:

* Python heap objects are addresses (`Nat`) into a `Heap := List PyObj`;
  `id(x)` is the address, so the identity memo of `_encode` is a list of
  addresses.  Tree-shaped (freshly constructed) values are `PyVal` trees.
* `json.dumps` / `json.loads` and `pickle.dumps` / `pickle.loads` are
  external libraries that form inverse pairs on the structured data this
  module feeds them; the model keeps the structured data itself (a `Doc`
  tree, resp. node lists) as the wire format.
* Machine integers do not occur: Python ints are unbounded, so `Int`/`Nat`
  are exact.
* Unbounded loops and recursion through the heap are given explicit fuel;
  fuel-sufficiency is proved where a claim depends on termination.
* `complex` and `bytes` codecs are outside the modelled value universe;
  no claim quantifies over them concretely, and theorems about
  "unsupported" tags take the full source registry tag list as hypothesis
  so the omission cannot be exploited.  The registered `float` codec
  (`_serialize_float` / `_deserialize_float`, `str()` and `float()` on
  IEEE doubles) is modelled separately at handler level — a double is the
  exact dyadic rational it denotes (`PyFloat`), `str` is Python 2.7's
  12-significant-digit `'%.12g'` formatting, and `float(s)` yields the
  exact value of the decimal literal (`DecVal`; CPython additionally
  rounds that value to the nearest double, a step that is the identity on
  every exactly-representable value, in particular on all strings used in
  the theorems below).
-/

namespace AzureMLServices

/-! ## Python value universe for the invocation codec

`PyVal` is a tree-shaped (freshly decoded) Python value.  `PyObj` is one
heap cell: container cells hold addresses of their elements, which is what
gives Python values identity (`id`) and makes cycles expressible.
-/

/-- A tree-shaped Python value, as produced by the deserializers.
Covers the scalar kinds `bool`, `int`, `unicode`, `None` and the container
kinds `list`, `tuple`, `dict` from the source registry. -/
inductive PyVal where
  | bool (b : Bool)
  | int (n : Int)
  | str (s : String)
  | none
  | list (elems : List PyVal)
  | tuple (elems : List PyVal)
  | dict (entries : List (PyVal × PyVal))
deriving Repr

/-- One Python heap cell.  Containers hold addresses.  `opaque_` stands for
a value of a runtime type with no registered serializer (carrying the
dotted type name used in the error message). -/
inductive PyObj where
  | bool (b : Bool)
  | int (n : Int)
  | str (s : String)
  | none
  | list (elems : List Nat)
  | tuple (elems : List Nat)
  | dict (entries : List (Nat × Nat))
  | opaque_ (tyName : String)
deriving Repr, DecidableEq

/-- The Python heap: `id(x)` is the index of `x`'s cell. -/
abbrev Heap := List PyObj

/-- `type(inp) in [list, tuple, dict]` (services.py line 314). -/
def PyObj.isContainer : PyObj → Bool
  | .list _ => true
  | .tuple _ => true
  | .dict _ => true
  | _ => false

/-- The direct element addresses of a heap cell (for a dict: each key and
its value, in pair order, matching the comprehension on line 223). -/
def PyObj.elems : PyObj → List Nat
  | .list es => es
  | .tuple es => es
  | .dict ps => ps.flatMap (fun p => [p.1, p.2])
  | _ => []

/-! ## Stringification of integers

`_serialize_int` stores `str(inp)`; `_deserialize_int` applies `int` to
the stored string.  `pyIntStr` and `pyParseInt` model `str` on ints and
`int` on the strings `str` produces (sign + decimal digits). -/

/-- The decimal digit character for `d < 10`. -/
def digitChar : Nat → Char
  | 0 => '0' | 1 => '1' | 2 => '2' | 3 => '3' | 4 => '4'
  | 5 => '5' | 6 => '6' | 7 => '7' | 8 => '8' | 9 => '9'
  | _ => '*'

/-- Numeric value of a decimal digit character. -/
def charVal (c : Char) : Nat := c.toNat - 48

/-- Is `c` one of `'0'..'9'`? -/
def isDigitCh (c : Char) : Bool := '0' ≤ c && c ≤ '9'

/-- Little-endian base-10 digits, computed with explicit fuel so that the
definition evaluates inside the kernel (`natDigits_eq_digits` identifies
it with `Nat.digits 10`). -/
def natDigitsAux : Nat → Nat → List Nat
  | _, 0 => []
  | 0, _ + 1 => []
  | fuel + 1, n + 1 => ((n + 1) % 10) :: natDigitsAux fuel ((n + 1) / 10)

/-- Little-endian base-10 digits of `n` (empty for `0`). -/
def natDigits (n : Nat) : List Nat := natDigitsAux n n

/-- Python `str` on a natural number. -/
def pyNatStr (n : Nat) : String :=
  if n = 0 then "0" else ⟨((natDigits n).map digitChar).reverse⟩

/-- Python `str` on an int: optional minus sign plus decimal digits. -/
def pyIntStr (i : Int) : String :=
  if i < 0 then "-" ++ pyNatStr i.natAbs else pyNatStr i.natAbs

/-- Python `int` applied to a non-empty all-digit character list. -/
def pyParseNat (cs : List Char) : Option Nat :=
  if cs ≠ [] ∧ cs.all isDigitCh then
    some (Nat.ofDigits 10 ((cs.map charVal).reverse))
  else
    Option.none

/-- Python `int` applied to a decimal string (as produced by `str`);
anything else raises `ValueError`, modelled as `none`. -/
def pyParseInt (s : String) : Option Int :=
  match s.data with
  | [] => Option.none
  | c :: rest =>
    if c = '-' then (pyParseNat rest).map (fun n => -(n : Int))
    else (pyParseNat (c :: rest)).map (fun n => (n : Int))

/-! ## The wire document

Every serializer produces a JSON object `{'type': tag, 'value': payload}`
where the payload is a string (scalars), a list of documents
(`list`/`tuple`) or a list of pairs of documents (`dict`).  The model
keeps this tree; `json.dumps`/`json.loads` at the outermost call are the
identity on it. -/

/-- A `{'type': tag, 'value': payload}` document. -/
inductive Doc where
  | scalar (tag : String) (value : String)
  | coll (tag : String) (value : List Doc)
  | pairs (tag : String) (value : List (Doc × Doc))
deriving Repr

/-- The `'type'` field of a document. -/
def Doc.tag : Doc → String
  | .scalar t _ => t
  | .coll t _ => t
  | .pairs t _ => t

/-- Errors raised by `_encode` (the fuel marker is a model artefact whose
unreachability is proved in `encodeA_no_fuelOut`). -/
inductive EncErr where
  | circular                      -- ValueError('circular reference detected')
  | unsupported (tyName : String) -- TypeError('Unsupported type for invocation: ...')
  | badAddr                       -- model artefact: dangling address
  | fuelOut                       -- model artefact: fuel exhausted
deriving Repr, DecidableEq

/-- Element loop of `_serialize_list_or_tuple` (lines 245-250): encode
each element with `f` (the recursive `_encode` call), threading the memo
left to right. -/
def encSeq (f : List Nat → Nat → Except EncErr (Doc × List Nat)) :
    List Nat → List Nat → Except EncErr (List Doc × List Nat)
  | memo, [] => .ok ([], memo)
  | memo, e :: es => do
    let (d, m1) ← f memo e
    let (ds, m2) ← encSeq f m1 es
    .ok (d :: ds, m2)

/-- Pair loop of `serialize_dict` (lines 220-224): for each entry encode
the key then the value, threading the memo. -/
def encPairs (f : List Nat → Nat → Except EncErr (Doc × List Nat)) :
    List Nat → List (Nat × Nat) → Except EncErr (List (Doc × Doc) × List Nat)
  | memo, [] => .ok ([], memo)
  | memo, (k, v) :: ps => do
    let (dk, m1) ← f memo k
    let (dv, m2) ← f m1 v
    let (ds, m3) ← encPairs f m2 ps
    .ok ((dk, dv) :: ds, m3)

/-- `_encode(inp, memo)` (services.py lines 309-325), one heap value.
Order of operations matches the source: circular check first, then the
unconditional `memo[id(inp)] = inp` (the `a :: memo` below), then
serializer dispatch.  The memo threads through container elements because
the Python memo is a mutable dict shared by the whole top-level call. -/
def encodeA (h : Heap) : Nat → List Nat → Nat → Except EncErr (Doc × List Nat)
  | 0, _, _ => .error .fuelOut
  | fuel + 1, memo, a =>
    match h[a]? with
    | Option.none => .error .badAddr
    | Option.some o =>
      if a ∈ memo ∧ o.isContainer then .error .circular
      else
        match o with
        | .bool b => .ok (.scalar "bool" (if b then "true" else "false"), a :: memo)
        | .int n => .ok (.scalar "int" (pyIntStr n), a :: memo)
        | .str s => .ok (.scalar "unicode" s, a :: memo)
        | .none => .ok (.scalar "null" "null", a :: memo)
        | .opaque_ ty => .error (.unsupported ty)
        | .list es =>
          match encSeq (fun m e => encodeA h fuel m e) (a :: memo) es with
          | .ok (ds, m) => .ok (.coll "list" ds, m)
          | .error e => .error e
        | .tuple es =>
          match encSeq (fun m e => encodeA h fuel m e) (a :: memo) es with
          | .ok (ds, m) => .ok (.coll "tuple" ds, m)
          | .error e => .error e
        | .dict ps =>
          match encPairs (fun m e => encodeA h fuel m e) (a :: memo) ps with
          | .ok (ds, m) => .ok (.pairs "dict" ds, m)
          | .error e => .error e

/-- The top-level `_encode(inp)` call: fresh memo, enough fuel for the
whole heap (`encodeA_no_fuelOut` shows `h.length + 1` can never run out).
The resulting document is what `json.dumps` would serialize. -/
def pyEncode (h : Heap) (a : Nat) : Except EncErr Doc :=
  match encodeA h (h.length + 1) [] a with
  | .ok (d, _) => .ok d
  | .error e => .error e

/-- Errors raised on the decode side. -/
inductive DecErr where
  | unsupported (tag : String) -- ValueError('unsupported type: ...')
  | badPayload                 -- payload shape rejected by the handler
deriving Repr, DecidableEq

/-- The tags with deserializers registered by the source module (the
`@deserializer(...)` decorations, lines 147-278; `long` is Python-2 only
and `numpy.ndarray` is registered only when numpy imports). -/
def sourceRegisteredTags : List String :=
  ["bool", "int", "long", "float", "complex", "unicode", "bytes",
   "dict", "null", "list", "tuple", "numpy.ndarray"]

/-- The subset of the registry covered by the model's value universe. -/
def modelledTags : List String :=
  ["bool", "int", "unicode", "null", "list", "tuple", "dict"]

mutual

/-- `_decode_inner` (lines 301-307): look the tag up in `_deserializers`
and run the handler.  The handlers are inlined per tag exactly as the
decorators register them:
`_deserialize_bool` returns `value['value'] == 'true'` (so any non-string
payload compares unequal and yields `False`), `_deserialize_int` applies
`int`, `_deserialize_unicode` and `_deserialize_null` return the payload /
`None`, and the container handlers recurse.  A tag missing from the
registry raises `ValueError('unsupported type: ...')`. -/
def decodeInner : Doc → Except DecErr PyVal
  | .scalar "bool" v => .ok (.bool (v == "true"))
  | .coll "bool" _ => .ok (.bool false)
  | .pairs "bool" _ => .ok (.bool false)
  | .scalar "int" v =>
    match pyParseInt v with
    | Option.some n => .ok (.int n)
    | Option.none => .error .badPayload
  | .coll "int" _ => .error .badPayload
  | .pairs "int" _ => .error .badPayload
  | .scalar "unicode" v => .ok (.str v)
  | .coll "unicode" _ => .error .badPayload
  | .pairs "unicode" _ => .error .badPayload
  | .scalar "null" _ => .ok .none
  | .coll "null" _ => .ok .none
  | .pairs "null" _ => .ok .none
  | .coll "list" ds =>
    match decodeList ds with
    | .ok vs => .ok (.list vs)
    | .error e => .error e
  | .scalar "list" _ => .error .badPayload
  | .pairs "list" _ => .error .badPayload
  | .coll "tuple" ds =>
    match decodeList ds with
    | .ok vs => .ok (.tuple vs)
    | .error e => .error e
  | .scalar "tuple" _ => .error .badPayload
  | .pairs "tuple" _ => .error .badPayload
  | .pairs "dict" ds =>
    match decodePairs ds with
    | .ok vs => .ok (.dict vs)
    | .error e => .error e
  | .scalar "dict" _ => .error .badPayload
  | .coll "dict" _ => .error .badPayload
  | d => .error (.unsupported d.tag)
termination_by structural d => d

/-- Comprehension in `_deserialize_list` / `_deserialize_tuple`. -/
def decodeList : List Doc → Except DecErr (List PyVal)
  | [] => .ok []
  | d :: ds => do
    let v ← decodeInner d
    let vs ← decodeList ds
    .ok (v :: vs)
termination_by structural ds => ds

/-- Comprehension in `_deserialize_dict` (key, then value). -/
def decodePairs : List (Doc × Doc) → Except DecErr (List (PyVal × PyVal))
  | [] => .ok []
  | (dk, dv) :: ds => do
    let k ← decodeInner dk
    let v ← decodeInner dv
    let vs ← decodePairs ds
    .ok ((k, v) :: vs)
termination_by structural ds => ds

end

/-- `_decode(inp)` (lines 328-334): `json.loads` yields the document,
which is required to be a dict (always true of a `Doc`) and passed to
`_decode_inner`. -/
def pyDecode (d : Doc) : Except DecErr PyVal := decodeInner d

/-! ## Heap reachability and the circular-reference guard -/

/-- `b` is a direct element of the container at address `a`. -/
def Edge (h : Heap) (a b : Nat) : Prop :=
  ∃ o : PyObj, h[a]? = Option.some o ∧ b ∈ o.elems

/-- `b` is reachable from `a` through one or more containment steps. -/
def Reaches (h : Heap) : Nat → Nat → Prop := Relation.TransGen (Edge h)

/-- Every element address stored in the heap is again a heap address
(true of any real Python heap: objects hold references to objects). -/
def Closed (h : Heap) : Prop :=
  ∀ (a : Nat) (o : PyObj), h[a]? = Option.some o → ∀ b ∈ o.elems, b < h.length

/-- No reachable value has an unregistered runtime type. -/
def NoOpaque (h : Heap) : Prop := ∀ o ∈ h, ∀ t, o ≠ .opaque_ t

/-- Number of container addresses of `h` not yet recorded in the memo:
the termination measure of `_encode`. -/
def cmem (h : Heap) (m : List Nat) : Nat :=
  ((List.range h.length).filter
    (fun i => (h.getD i .none).isContainer && !(decide (i ∈ m)))).length

/-! ## The dependency-graph walker: `_Serializer.find_globals`

`find_globals` (services.py lines 393-412) scans a CPython 2.7 bytecode
string: one opcode byte per instruction, followed by a two-byte
little-endian operand when the opcode is `>= dis.HAVE_ARGUMENT`.  Only
`LOAD_GLOBAL` operands are recorded.  Opcode numbers are the CPython 2.7
values (the module publishes with `"Language": "python-2.7-64"` and uses
`ord()` on the code string, which is Python-2-only).

Out-of-range reads (`byte_code[cur_byte+1]`, `co_names[oparg]`) would
raise `IndexError` in Python; compiler-produced code objects never
truncate an instruction or store an out-of-range name index, and the
model totalises those reads with `getD` defaults.

The Python result is a `set`; iteration order of a Python set is
unspecified, so the model returns the first-seen order (a concrete
admissible order) as a duplicate-free list. -/

def HAVE_ARGUMENT : Nat := 90

def LOAD_GLOBAL : Nat := 116

/-- The scan loop of `find_globals`.  `rem` is an explicit fuel that only
needs to dominate the number of remaining instructions (each step advances
`cur` by at least one). -/
def findGlobalsAux (bc : List Nat) (names : List String) :
    Nat → Nat → List String → List String
  | 0, _, acc => acc
  | rem + 1, cur, acc =>
    if cur < bc.length then
      let op := bc.getD cur 0
      if HAVE_ARGUMENT ≤ op then
        if op = LOAD_GLOBAL then
          let oparg := bc.getD (cur + 1) 0 + 256 * bc.getD (cur + 2) 0
          let name := names.getD oparg ""
          findGlobalsAux bc names rem (cur + 3)
            (if name ∈ acc then acc else acc ++ [name])
        else
          findGlobalsAux bc names rem (cur + 3) acc
      else
        findGlobalsAux bc names rem (cur + 1) acc
    else
      acc

/-- `_Serializer.find_globals(code)`: the set of global names the bytecode
reads, in first-seen order. -/
def find_globals (bc : List Nat) (names : List String) : List String :=
  findGlobalsAux bc names bc.length 0 []

/-- The instruction-boundary offsets obtained by decoding the stream
sequentially under the same fixed/variable-width rule. -/
def instrStartsAux (bc : List Nat) : Nat → Nat → List Nat
  | 0, _ => []
  | rem + 1, cur =>
    if cur < bc.length then
      cur :: instrStartsAux bc rem
        (cur + (if HAVE_ARGUMENT ≤ bc.getD cur 0 then 3 else 1))
    else
      []

def instrStarts (bc : List Nat) : List Nat := instrStartsAux bc bc.length 0

/-- The operand of the (argument-carrying) instruction at offset `p`. -/
def operandAt (bc : List Nat) (p : Nat) : Nat :=
  bc.getD (p + 1) 0 + 256 * bc.getD (p + 2) 0

/-! ## The closure serializer data model

Python objects relevant to `_Serializer`: function objects (identity =
index `fid` into `World.funcs`), class objects (`cid` into
`World.classes`), module objects (identified by `__name__`), and plain
picklable values. -/

/-- The 14 CPython 2.7 `co_*` fields captured by `_code_args`
(services.py lines 344-346) and replayed positionally into `CodeType` by
the deserializer.  Constants are restricted to the modelled value
universe (no nested code objects: `MAKE_FUNCTION` is outside the modelled
opcode set). -/
structure CodeObj where
  co_argcount : Nat
  co_nlocals : Nat
  co_stacksize : Nat
  co_flags : Nat
  co_code : List Nat
  co_consts : List PyVal
  co_names : List String
  co_varnames : List String
  co_filename : String
  co_name : String
  co_firstlineno : Nat
  co_lnotab : List Nat
  co_freevars : List String
  co_cellvars : List String
deriving Repr

/-- A value bound in a module namespace (`func.__globals__`). -/
inductive GValue where
  | func (fid : Nat)       -- a FunctionType object
  | mod (modname : String) -- a ModuleType object, identified by __name__
  | cls (cid : Nat)        -- a class object
  | lit (v : PyVal)        -- any other picklable value
deriving Repr

/-- Absence of a binding (`name not in func.func_globals`) is decidable
even though full `GValue` equality is not needed anywhere. -/
instance (o : Option GValue) : Decidable (o = Option.none) :=
  match o with
  | Option.none => isTrue rfl
  | Option.some _ => isFalse (fun h => Option.noConfusion h)

/-- A function object: `__name__`, `__module__`, `__code__`,
`func_defaults` and `__globals__`.  `func_closure` is not modelled:
`cPickle` cannot pickle cell objects, so a function with a non-empty
closure cannot be published at all. -/
structure FuncObj where
  fname : String
  module : String
  code : CodeObj
  defaults : List PyVal
  glob : List (String × GValue)
deriving Repr

/-- A class object: name, defining module, old-style vs new-style, base
class references and `__dict__` items in iteration order. -/
structure ClassObj where
  cname : String
  cmodule : String
  newstyle : Bool
  bases : List String
  cdict : List (String × GValue)
deriving Repr

/-- The Python world the serializer runs in. -/
structure World where
  funcs : List FuncObj
  classes : List ClassObj
deriving Repr

/-- An entry of the literal-globals dict pickled with each function
(the `else` branch of `get_code_args`): a plain value, or a class object
from a foreign module (pickled by reference). -/
inductive EmbVal where
  | lit (v : PyVal)
  | classByRef (cid : Nat)
deriving Repr

/-- A queue entry of `_Serializer` (the `('func'|'mod'|'type'|'oldclass',
name, value)` triples). -/
inductive QItem where
  | func (name : String) (fid : Nat)
  | mod (name : String) (modname : String)
  | newclass (name : String) (cid : Nat)
  | oldclass (name : String) (cid : Nat)
deriving Repr

/-- One entry of the pickled node list produced by `serialize_obj`.  For a
function node the payload is the pickled `(codeArgs, funcArgs, globals)`
triple of `get_code_args`; for an old-style class node each member maps to
the pickled node list produced by the nested `serialize_obj` call. -/
inductive Node where
  | func (name : String) (code : CodeObj) (fname : String)
         (defaults : List PyVal) (globals_ : List (String × EmbVal))
  | mod (name : String) (modname : String)
  | oldclass (name : String) (cname : String) (cmodule : String)
             (bases : List String) (members : List (String × List Node))
deriving Repr

/-- Mutable state of a `_Serializer` instance: the visited `(name,
identity)` set `functions`, the breadth-first `queue`, and `self.mod`. -/
structure SState where
  functions : List (String × Nat)
  queue : List QItem
  mod : String
deriving Repr

/-- Classification of one discovered global name (the body of the `for`
loop in `get_code_args`, lines 421-439): functions are enqueued unless the
`(name, value)` pair was already visited; modules are always enqueued;
same-module classes are enqueued as new-style (`'type'`) or old-style
(`'oldclass'`); everything else is captured as a literal global. -/
def processName (w : World) (smod : String) (F : FuncObj)
    (acc : SState × List (String × EmbVal)) (name : String) :
    SState × List (String × EmbVal) :=
  let (st, globs) := acc
  match F.glob.lookup name with
  | Option.none => (st, globs)
  | Option.some (.func fid) =>
    if (name, fid) ∈ st.functions then (st, globs)
    else ({ functions := st.functions ++ [(name, fid)],
            queue := st.queue ++ [.func name fid],
            mod := st.mod }, globs)
  | Option.some (.mod m) => ({ st with queue := st.queue ++ [.mod name m] }, globs)
  | Option.some (.cls cid) =>
    match w.classes[cid]? with
    | Option.none => (st, globs)
    | Option.some C =>
      if C.cmodule = smod then
        if C.newstyle then
          ({ st with queue := st.queue ++ [.newclass name cid] }, globs)
        else
          ({ st with queue := st.queue ++ [.oldclass name cid] }, globs)
      else (st, globs ++ [(name, .classByRef cid)])
  | Option.some (.lit v) => (st, globs ++ [(name, .lit v)])

/-- `get_code_args(func)` (lines 414-441): walk the globals the code
reads, mutate the serializer state, and return the pickled
`(codeArgs, funcArgs, globals)` payload. -/
def get_code_args (w : World) (F : FuncObj) (st : SState) :
    (CodeObj × String × List PyVal × List (String × EmbVal)) × SState :=
  let (st', globs) :=
    (find_globals F.code.co_code F.code.co_names).foldl
      (processName w st.mod F) (st, [])
  ((F.code, F.fname, F.defaults, globs), st')

/-- The member loop in the `'oldclass'` arm of `serialize_obj` (line 387):
`{n: self.serialize_obj(v) for n, v in cur.__dict__.items()}`.
`serialize_obj(self, obj)` NEVER READS `obj`: it only drains the live
queue.  The model reproduces this faithfully: the member's own value is
discarded and `f` (a re-invocation of `serialize_obj`) runs on the current
state. -/
def serMembers (f : SState → Option (List Node × SState)) :
    SState → List (String × GValue) → Option (List (String × List Node) × SState)
  | st, [] => some ([], st)
  | st, (n, _v) :: ms =>
    match f st with
    | Option.none => Option.none
    | Option.some (nodes, st1) =>
      match serMembers f st1 ms with
      | Option.none => Option.none
      | Option.some (members, st2) => some ((n, nodes) :: members, st2)

/-- `serialize_obj` (lines 375-391): drain the queue, emitting one node
per item.  `'type'` raises `NotImplementedError('new style class not
supported')` and unknown tags raise, both modelled as `none`; `none` is
also returned if the fuel (a model artefact, one unit per dequeued item)
runs out. -/
def serObj (w : World) : Nat → SState → Option (List Node × SState)
  | fuel, st =>
    match st.queue with
    | [] => some ([], st)
    | item :: rest =>
      match fuel with
      | 0 => Option.none
      | fuel + 1 =>
        let st0 : SState := { st with queue := rest }
        match item with
        | .func name fid =>
          match w.funcs[fid]? with
          | Option.none => Option.none
          | Option.some F =>
            let (payload, st1) := get_code_args w F st0
            match serObj w fuel st1 with
            | Option.none => Option.none
            | Option.some (nodes, st2) =>
              some (.func name payload.1 payload.2.1 payload.2.2.1 payload.2.2.2
                      :: nodes, st2)
        | .mod name m =>
          match serObj w fuel st0 with
          | Option.none => Option.none
          | Option.some (nodes, st2) => some (.mod name m :: nodes, st2)
        | .newclass _ _ => Option.none
        | .oldclass name cid =>
          match w.classes[cid]? with
          | Option.none => Option.none
          | Option.some C =>
            match serMembers (fun st' => serObj w fuel st') st0 C.cdict with
            | Option.none => Option.none
            | Option.some (members, st1) =>
              match serObj w fuel st1 with
              | Option.none => Option.none
              | Option.some (nodes, st2) =>
                some (.oldclass name C.cname C.cmodule C.bases members :: nodes, st2)

/-- `_serialize_func(func)` = `_Serializer().serialize(func)` (lines
368-373, 443-444): seed the queue and the visited set with the published
function and drain. -/
def serializeF (w : World) (fuel : Nat) (fid : Nat) : Option (List Node) :=
  match w.funcs[fid]? with
  | Option.none => Option.none
  | Option.some F =>
    match serObj w fuel
        { functions := [(F.fname, fid)], queue := [.func F.fname fid],
          mod := F.module } with
    | Option.none => Option.none
    | Option.some (nodes, _) => some nodes

/-! ## The closure deserializer -/

/-- A value living in the reconstruction namespace (or produced at
runtime).  `funcO` is an original in-world function object — it is used by
the operational semantics for the pre-serialization side and is never
produced by the deserializer; `funcR` is a `FunctionType(code, globalDict,
*funcArgs)` closure over the shared namespace. -/
inductive RVal where
  | lit (v : PyVal)
  | funcO (fid : Nat)
  | funcR (code : CodeObj) (fname : String) (defaults : List PyVal)
  | modul (modname : String)
  | clsRef (cid : Nat)
  | oldcls (cname cmodule : String) (bases : List String)
           (members : List (String × RVal))
deriving Repr

/-- The target namespace (`globalDict`), a Python dict. -/
abbrev NS := List (String × RVal)

/-- Python dict assignment `d[k] = v`. -/
def nsSet (k : String) (v : RVal) : NS → NS
  | [] => [(k, v)]
  | (k', v') :: rest => if k' = k then (k, v) :: rest else (k', v') :: nsSet k v rest

/-- `globalDict.update(**updatedGlobals)` for a function node's pickled
literal globals. -/
def nsUpdateGlobals (ns : NS) (globs : List (String × EmbVal)) : NS :=
  globs.foldl (fun ns kv =>
    match kv.2 with
    | .lit v => nsSet kv.1 (.lit v) ns
    | .classByRef cid => nsSet kv.1 (.clsRef cid) ns) ns

mutual

/-- `_deserialize_func(funcs, globalDict)` (lines 446-472): process nodes
in stored order; every node is bound into the namespace under its queue
name, and the value built from the FIRST node is returned (`None` for an
empty list). -/
def deserializeF : List Node → NS → NS × RVal
  | [], ns => (ns, .lit .none)
  | nd :: rest, ns =>
    let (ns1, name, value) := deserNode nd ns
    let (ns', _) := deserializeF rest (nsSet name value ns1)
    (ns', value)
termination_by structural nds => nds

/-- One iteration of the `_deserialize_func` loop: a function node merges
its literal globals into the shared dict and builds
`FunctionType(code, globalDict, *funcArgs)`; a module node imports by
name; an old-style class node reconstructs each member by a recursive
`_deserialize_func(v, globalDict)` (mutating the same dict) and builds
the class. -/
def deserNode : Node → NS → NS × String × RVal
  | .func name code fname defaults globs, ns =>
    (nsUpdateGlobals ns globs, name, .funcR code fname defaults)
  | .mod name m, ns => (ns, name, .modul m)
  | .oldclass name cname cmodule bases members, ns =>
    let (ns1, members') := deserMembers members ns
    (ns1, name, .oldcls cname cmodule bases members')
termination_by structural nd => nd

/-- The member dict comprehension in the `'oldclass'` arm (line 461),
evaluated left to right against the shared mutable `globalDict`. -/
def deserMembers : List (String × List Node) → NS → NS × List (String × RVal)
  | [], ns => (ns, [])
  | (n, blob) :: ms, ns =>
    let (ns1, v) := deserializeF blob ns
    let (ns2, vs) := deserMembers ms ns1
    (ns2, (n, v) :: vs)
termination_by structural ms => ms

end

/-! ## An operational semantics for modelled bytecode

To state "behaves identically" claims, the model gives CPython 2.7
bytecode a small-step stack-machine semantics over the opcode subset
relevant to published functions (constants, locals, globals, arithmetic,
comparison, branching, calls, return).  Executing any opcode outside the
subset, or any Python runtime error (NameError, TypeError, calling a
non-function, unbound local), is `stuck`.  Fuel decreases by one per
executed instruction, so two runs of identical code consume fuel in
lockstep.  A program counter that is not an instruction boundary of the
decoded stream is `stuck` (compiler-produced code never jumps into the
middle of an instruction). -/

def POP_TOP : Nat := 1

def BINARY_ADD : Nat := 23

def BINARY_SUBTRACT : Nat := 24

def RETURN_VALUE : Nat := 83

def LOAD_CONST : Nat := 100

def COMPARE_OP : Nat := 107

def JUMP_FORWARD : Nat := 110

def JUMP_ABSOLUTE : Nat := 113

def POP_JUMP_IF_FALSE : Nat := 114

def LOAD_FAST : Nat := 124

def STORE_FAST : Nat := 125

def CALL_FUNCTION : Nat := 131

/-- Runtime outcomes distinguished by the model. -/
inductive RtErr where
  | fuelOut   -- model artefact: fuel exhausted (lockstep on both sides)
  | stuck     -- any Python runtime error or unmodelled opcode
  | badReturn -- top-level call returned a non-plain value
deriving Repr, DecidableEq

/-- Which namespace a frame resolves its globals in: the original
function's `__globals__`, or the shared reconstruction namespace. -/
inductive EnvK where
  | orig (glob : List (String × GValue))
  | recon
deriving Repr

/-- The runtime view of a module-namespace value. -/
def gvalToR : GValue → RVal
  | .func fid => .funcO fid
  | .mod m => .modul m
  | .cls cid => .clsRef cid
  | .lit v => .lit v

/-- Python truthiness of a plain value. -/
def truthy : PyVal → Bool
  | .bool b => b
  | .int n => decide (n ≠ 0)
  | .str s => decide (s ≠ "")
  | .none => false
  | .list es => !es.isEmpty
  | .tuple es => !es.isEmpty
  | .dict ps => !ps.isEmpty

mutual

/-- Structural equality of plain values (Python `==` on the modelled
value kinds). -/
def pyValEq : PyVal → PyVal → Bool
  | .bool a, .bool b => a == b
  | .int a, .int b => a == b
  | .str a, .str b => a == b
  | .none, .none => true
  | .list a, .list b => pyValEqList a b
  | .tuple a, .tuple b => pyValEqList a b
  | .dict a, .dict b => pyValEqPairs a b
  | _, _ => false
termination_by structural v => v

/-- Elementwise equality of value lists. -/
def pyValEqList : List PyVal → List PyVal → Bool
  | [], [] => true
  | a :: as_, b :: bs => pyValEq a b && pyValEqList as_ bs
  | _, _ => false
termination_by structural vs => vs

/-- Pairwise equality of entry lists. -/
def pyValEqPairs : List (PyVal × PyVal) → List (PyVal × PyVal) → Bool
  | [], [] => true
  | (ka, va) :: as_, (kb, vb) :: bs =>
    pyValEq ka kb && pyValEq va vb && pyValEqPairs as_ bs
  | _, _ => false
termination_by structural vs => vs

end

/-- `a + b` on the modelled value kinds. -/
def pyAdd : RVal → RVal → Option RVal
  | .lit (.int a), .lit (.int b) => some (.lit (.int (a + b)))
  | .lit (.str a), .lit (.str b) => some (.lit (.str (a ++ b)))
  | _, _ => Option.none

/-- `a - b` on the modelled value kinds. -/
def pySub : RVal → RVal → Option RVal
  | .lit (.int a), .lit (.int b) => some (.lit (.int (a - b)))
  | _, _ => Option.none

/-- `a == b` restricted to plain values (comparisons involving function,
module or class objects are outside the modelled subset). -/
def pyEq : RVal → RVal → Option Bool
  | .lit a, .lit b => some (pyValEq a b)
  | _, _ => Option.none

/-- Frame-local slot initialisation for a call: positional arguments,
then trailing defaults for missing parameters, then unbound slots up to
`co_nlocals` (CPython's argument binding for calls without keyword or
star arguments). -/
def bindArgs (code : CodeObj) (defaults : List PyVal) (args : List RVal) :
    Option (List (Option RVal)) :=
  if code.co_argcount < args.length then Option.none
  else
    let missing := code.co_argcount - args.length
    if defaults.length < missing then Option.none
    else
      let fill := (defaults.drop (defaults.length - missing)).map RVal.lit
      some ((args ++ fill).map some ++
        List.replicate (code.co_nlocals - code.co_argcount) Option.none)

/-- One frame's execution.  `w` resolves `funcO` callees and `orig`
globals; `ns` resolves `recon` globals; both sides call through the same
machine. -/
def run (w : World) (ns : NS) :
    Nat → CodeObj → EnvK → List (Option RVal) → List RVal → Nat →
    Except RtErr RVal
  | 0, _, _, _, _, _ => .error .fuelOut
  | fuel + 1, code, env, locals, stack, pc =>
    if pc ∈ instrStarts code.co_code then
      let op := code.co_code.getD pc 0
      if op = LOAD_CONST then
        run w ns fuel code env locals
          (.lit (code.co_consts.getD (operandAt code.co_code pc) .none) :: stack)
          (pc + 3)
      else if op = LOAD_FAST then
        match locals.getD (operandAt code.co_code pc) Option.none with
        | Option.some v => run w ns fuel code env locals (v :: stack) (pc + 3)
        | Option.none => .error .stuck
      else if op = STORE_FAST then
        match stack with
        | v :: rest =>
          run w ns fuel code env
            (locals.set (operandAt code.co_code pc) (some v)) rest (pc + 3)
        | [] => .error .stuck
      else if op = LOAD_GLOBAL then
        let name := code.co_names.getD (operandAt code.co_code pc) ""
        match env with
        | .orig g =>
          match g.lookup name with
          | Option.some gv =>
            run w ns fuel code env locals (gvalToR gv :: stack) (pc + 3)
          | Option.none => .error .stuck
        | .recon =>
          match ns.lookup name with
          | Option.some rv =>
            run w ns fuel code env locals (rv :: stack) (pc + 3)
          | Option.none => .error .stuck
      else if op = POP_TOP then
        match stack with
        | _ :: rest => run w ns fuel code env locals rest (pc + 1)
        | [] => .error .stuck
      else if op = BINARY_ADD then
        match stack with
        | b :: a :: rest =>
          match pyAdd a b with
          | Option.some v => run w ns fuel code env locals (v :: rest) (pc + 1)
          | Option.none => .error .stuck
        | _ => .error .stuck
      else if op = BINARY_SUBTRACT then
        match stack with
        | b :: a :: rest =>
          match pySub a b with
          | Option.some v => run w ns fuel code env locals (v :: rest) (pc + 1)
          | Option.none => .error .stuck
        | _ => .error .stuck
      else if op = COMPARE_OP then
        if operandAt code.co_code pc = 2 then
          match stack with
          | b :: a :: rest =>
            match pyEq a b with
            | Option.some bl =>
              run w ns fuel code env locals (.lit (.bool bl) :: rest) (pc + 3)
            | Option.none => .error .stuck
          | _ => .error .stuck
        else .error .stuck
      else if op = POP_JUMP_IF_FALSE then
        match stack with
        | .lit v :: rest =>
          if truthy v then run w ns fuel code env locals rest (pc + 3)
          else run w ns fuel code env locals rest (operandAt code.co_code pc)
        | _ :: _ => .error .stuck
        | [] => .error .stuck
      else if op = JUMP_ABSOLUTE then
        run w ns fuel code env locals stack (operandAt code.co_code pc)
      else if op = JUMP_FORWARD then
        run w ns fuel code env locals stack (pc + 3 + operandAt code.co_code pc)
      else if op = RETURN_VALUE then
        match stack with
        | v :: _ => .ok v
        | [] => .error .stuck
      else if op = CALL_FUNCTION then
        let arg := operandAt code.co_code pc
        if arg < 256 then
          let nargs := arg
          if nargs ≤ stack.length then
            let args := (stack.take nargs).reverse
            match stack.drop nargs with
            | callee :: rest =>
              match callee with
              | .funcO fid =>
                match w.funcs[fid]? with
                | Option.some F =>
                  match bindArgs F.code F.defaults args with
                  | Option.some locals' =>
                    match run w ns fuel F.code (.orig F.glob) locals' [] 0 with
                    | .ok v =>
                      run w ns fuel code env locals (v :: rest) (pc + 3)
                    | .error e => .error e
                  | Option.none => .error .stuck
                | Option.none => .error .stuck
              | .funcR fcode _ fdefaults =>
                match bindArgs fcode fdefaults args with
                | Option.some locals' =>
                  match run w ns fuel fcode .recon locals' [] 0 with
                  | .ok v =>
                    run w ns fuel code env locals (v :: rest) (pc + 3)
                  | .error e => .error e
                | Option.none => .error .stuck
              | _ => .error .stuck
            | [] => .error .stuck
          else .error .stuck
        else .error .stuck
      else .error .stuck
    else .error .stuck

/-- A top-level call of a function value on plain arguments, observing a
plain result (what the remote execution wrapper does with a published
function). -/
def pyCall (w : World) (ns : NS) (callee : RVal) (args : List PyVal)
    (fuel : Nat) : Except RtErr PyVal :=
  match callee with
  | .funcO fid =>
    match w.funcs[fid]? with
    | Option.some F =>
      match bindArgs F.code F.defaults (args.map .lit) with
      | Option.some locals =>
        match run w ns fuel F.code (.orig F.glob) locals [] 0 with
        | .ok (.lit v) => .ok v
        | .ok _ => .error .badReturn
        | .error e => .error e
      | Option.none => .error .stuck
    | Option.none => .error .stuck
  | .funcR code _ defaults =>
    match bindArgs code defaults (args.map .lit) with
    | Option.some locals =>
      match run w ns fuel code .recon locals [] 0 with
      | .ok (.lit v) => .ok v
      | .ok _ => .error .badReturn
      | .error e => .error e
    | Option.none => .error .stuck
  | _ => .error .stuck

/-! ## The round-trip simulation

`VRel` relates an original-world runtime value to its reconstructed
counterpart, relative to the set `S` of function ids whose nodes were
serialized: an original function object corresponds to a `FunctionType`
rebuilt from its own code, `__name__` and defaults. -/

inductive VRel (w : World) (S : List Nat) : RVal → RVal → Prop
  | lit (v : PyVal) : VRel w S (.lit v) (.lit v)
  | modul (m : String) : VRel w S (.modul m) (.modul m)
  | clsRef (cid : Nat) : VRel w S (.clsRef cid) (.clsRef cid)
  | fn {fid : Nat} {F : FuncObj} (hS : fid ∈ S)
      (hF : w.funcs[fid]? = Option.some F) :
      VRel w S (.funcO fid) (.funcR F.code F.fname F.defaults)

/-- `VRel` lifted to optional values (absent on both sides, or present and
related). -/
def OptVRel (w : World) (S : List Nat) : Option RVal → Option RVal → Prop
  | Option.none, Option.none => True
  | Option.some a, Option.some b => VRel w S a b
  | _, _ => False

/-- Outcome relation: identical errors, or related values. -/
def RRel (w : World) (S : List Nat) : Except RtErr RVal → Except RtErr RVal → Prop
  | .error e₁, .error e₂ => e₁ = e₂
  | .ok a, .ok b => VRel w S a b
  | _, _ => False

/-- Hypotheses under which the reconstruction namespace simulates the
original world: every serialized function lives in the shared module
namespace `G`, and on every global name any of them reads, `G` and the
reconstruction namespace `ns` agree up to `VRel`. -/
structure SimHyp (w : World) (G : List (String × GValue)) (ns : NS)
    (S : List Nat) : Prop where
  funcs_ok : ∀ fid ∈ S, ∃ F, w.funcs[fid]? = Option.some F ∧ F.glob = G
  agree : ∀ fid F, fid ∈ S → w.funcs[fid]? = Option.some F →
    ∀ n ∈ find_globals F.code.co_code F.code.co_names,
      OptVRel w S ((G.lookup n).map gvalToR) (ns.lookup n)

/-! ## Claim C3 -/

/-- Number of function nodes in a node list whose serialized code payload
carries the given bytecode. -/
def countNodesWithCode (nodes : List Node) (bc : List Nat) : Nat :=
  (nodes.filter fun nd =>
    match nd with
    | .func _ c _ _ _ => c.co_code == bc
    | _ => false).length

/-- A published function `p` that calls one function object through two
global names `a` and `c` (an alias `c = a`). -/
def c3p : FuncObj :=
  { fname := "p", module := "m",
    code :=
      { co_argcount := 0, co_nlocals := 0, co_stacksize := 2, co_flags := 67,
        co_code := [116, 0, 0, 1, 116, 1, 0, 1, 100, 0, 0, 83],
        co_consts := [.none], co_names := ["a", "c"], co_varnames := [],
        co_filename := "<m>", co_name := "p", co_firstlineno := 1,
        co_lnotab := [], co_freevars := [], co_cellvars := [] },
    defaults := [],
    glob := [("p", .func 0), ("a", .func 1), ("c", .func 1)] }

/-- The aliased body function (one function object, `__name__` `b`,
reachable under the two global names `a` and `c`). -/
def c3b : FuncObj :=
  { fname := "b", module := "m",
    code :=
      { co_argcount := 0, co_nlocals := 0, co_stacksize := 1, co_flags := 67,
        co_code := [100, 0, 0, 83],
        co_consts := [.none], co_names := [], co_varnames := [],
        co_filename := "<m>", co_name := "b", co_firstlineno := 1,
        co_lnotab := [], co_freevars := [], co_cellvars := [] },
    defaults := [],
    glob := [("p", .func 0), ("a", .func 1), ("c", .func 1)] }

/-! ## Concrete instances for the round-trip claims -/

/-- A dependency-free published function: `def f0(): return None`. -/
def c1f : FuncObj :=
  { fname := "f0", module := "m",
    code :=
      { co_argcount := 0, co_nlocals := 0, co_stacksize := 1, co_flags := 67,
        co_code := [100, 0, 0, 83],
        co_consts := [.none], co_names := [], co_varnames := [],
        co_filename := "<m>", co_name := "f0", co_firstlineno := 1,
        co_lnotab := [], co_freevars := [], co_cellvars := [] },
    defaults := [],
    glob := [("f0", .func 0)] }

/-- `def f(x): return g(x)` — calls its dependency through the global
name `g`. -/
def c2f : FuncObj :=
  { fname := "f", module := "m",
    code :=
      { co_argcount := 1, co_nlocals := 1, co_stacksize := 2, co_flags := 67,
        co_code := [116, 0, 0, 124, 0, 0, 131, 1, 0, 83],
        co_consts := [.none], co_names := ["g"], co_varnames := ["x"],
        co_filename := "<m>", co_name := "f", co_firstlineno := 1,
        co_lnotab := [], co_freevars := [], co_cellvars := [] },
    defaults := [],
    glob := [("f", .func 0), ("g", .func 1)] }

/-- `def g(x): f; return x` — mentions `f` (mutual reference) and returns
its argument. -/
def c2g : FuncObj :=
  { fname := "g", module := "m",
    code :=
      { co_argcount := 1, co_nlocals := 1, co_stacksize := 2, co_flags := 67,
        co_code := [116, 0, 0, 1, 124, 0, 0, 83],
        co_consts := [.none], co_names := ["f"], co_varnames := ["x"],
        co_filename := "<m>", co_name := "g", co_firstlineno := 1,
        co_lnotab := [], co_freevars := [], co_cellvars := [] },
    defaults := [],
    glob := [("f", .func 0), ("g", .func 1)] }

/-! ## Claim C8 -/

/-- A published function whose code reads the global name `C`, bound to a
class of its own module. -/
def c8p : FuncObj :=
  { fname := "pub", module := "m",
    code :=
      { co_argcount := 0, co_nlocals := 0, co_stacksize := 1, co_flags := 67,
        co_code := [116, 0, 0, 1, 100, 0, 0, 83],
        co_consts := [.none], co_names := ["C"], co_varnames := [],
        co_filename := "<m>", co_name := "pub", co_firstlineno := 1,
        co_lnotab := [], co_freevars := [], co_cellvars := [] },
    defaults := [],
    glob := [("pub", .func 0), ("C", .cls 0)] }

/-- The member function `meth` stored in the class dict (`fid` 1). -/
def c8m : FuncObj :=
  { fname := "meth", module := "m",
    code :=
      { co_argcount := 1, co_nlocals := 1, co_stacksize := 1, co_flags := 67,
        co_code := [100, 0, 0, 83],
        co_consts := [.none], co_names := [], co_varnames := ["self"],
        co_filename := "<m>", co_name := "meth", co_firstlineno := 1,
        co_lnotab := [], co_freevars := [], co_cellvars := [] },
    defaults := [],
    glob := [("pub", .func 0), ("C", .cls 0)] }

/-- The old-style class `C` of module `m`, with `meth` in its dict. -/
def c8C : ClassObj :=
  { cname := "C", cmodule := "m", newstyle := false, bases := [],
    cdict := [("meth", .func 1)] }

/-- The same class as a new-style class. -/
def c8Cn : ClassObj :=
  { cname := "C", cmodule := "m", newstyle := true, bases := [],
    cdict := [("meth", .func 1)] }

/-! ## Claim C9: the batched `published.map` client

The network boundary is a parameter `svc : ReqBody → RespVal` (the
deployed service behind `requests.post`); the model returns, next to the
parsed response, the trace of request bodies actually posted, so "exactly
one request" is a provable statement about the trace. -/

/-- The JSON request body built by `published._invoke` (lines 543-552):
one named input port carrying the column names and ALL value rows. -/
structure ReqBody where
  inputName : String
  columnNames : List String
  values : List (List Doc)
deriving Repr

/-- The parsed `Results[output_name]['value']` object of a response
(lines 581-585, 596-601). -/
structure RespVal where
  columnNames : Option (List String)
  columnTypes : Option (List String)
  values : List Doc
deriving Repr

/-- `published._invoke(call_args)` (lines 543-571): build ONE body
holding every row of `call_args` and perform one POST.  The second
component is the request trace of the call (one entry: one network
call). -/
def pub_invoke (svc : ReqBody → RespVal) (inputName : String)
    (columnNames : List String) (call_args : List (List Doc)) :
    RespVal × List ReqBody :=
  let body : ReqBody :=
    { inputName := inputName, columnNames := columnNames,
      values := call_args }
  (svc body, [body])

/-- Python `zip(*args)` (line 599): truncate to the shortest sequence,
building one argument tuple per index.  The fuel is structural; the seed
in `pyZip` dominates the shortest length. -/
def pyZipAux : Nat → List (List Nat) → List (List Nat)
  | 0, _ => []
  | fuel + 1, seqs =>
    if seqs.isEmpty then []
    else if seqs.all (fun s => !s.isEmpty) then
      (seqs.map (fun s => s.headD 0)) ::
        pyZipAux fuel (seqs.map (fun s => s.tail))
    else []

def pyZip (seqs : List (List Nat)) : List (List Nat) :=
  pyZipAux ((seqs.headD []).length + 1) seqs

/-- `self._map_args(*cur_args)` (lines 572-574) for one tuple: encode
each argument (`_encode_arg` with the default `OBJECT` annotation is
`_encode`) into one row of the request. -/
def encodeRow (h : Heap) : List Nat → Except EncErr (List Doc)
  | [] => .ok []
  | a :: as =>
    match pyEncode h a with
    | .error e => .error e
    | .ok d =>
      match encodeRow h as with
      | .error e => .error e
      | .ok ds => .ok (d :: ds)

/-- The comprehension `[self._map_args(*cur_args) for cur_args in
zip(*args)]` (line 599). -/
def encodeRows (h : Heap) : List (List Nat) → Except EncErr (List (List Doc))
  | [] => .ok []
  | r :: rs =>
    match encodeRow h r with
    | .error e => .error e
    | .ok row =>
      match encodeRows h rs with
      | .error e => .error e
      | .ok rows => .ok (row :: rows)

/-- `published.map(*args)` (lines 588-602) for a service with the default
output port `output1`: zip the input sequences, encode every tuple, issue
ONE `_invoke` carrying all rows, and decode each row of the response's
`Values` in order. -/
def pub_map (svc : ReqBody → RespVal) (inputName : String)
    (columnNames : List String) (h : Heap) (args : List (List Nat)) :
    Except EncErr (List (Except DecErr PyVal) × List ReqBody) :=
  match encodeRows h (pyZip args) with
  | .error e => .error e
  | .ok rows =>
    let (r, reqs) := pub_invoke svc inputName columnNames rows
    .ok (r.values.map (fun x => decodeInner x), reqs)

/-- A stand-in deployed service for the witness: echoes the head cell of
each input row, one result row per input row. -/
def echoSvc : ReqBody → RespVal := fun b =>
  RespVal.mk Option.none Option.none
    (b.values.map (fun row => row.headD (.scalar "null" "null")))


/-! ## The registered float codec (Python 2.7)

`_serialize_float(inp, memo)` (services.py lines 172-175) is
`{'type': 'float', 'value': str(inp)}` and `_deserialize_float(value)`
(lines 177-179) is `float(value['value'])`.  A CPython float is an
IEEE-754 double, i.e. a dyadic rational `m / 2^k`, which the model
carries exactly.  Under the Python 2.7 runtime the service targets
(`"Language": "python-2.7-64"`), `str` on a finite float is `'%.12g'`
formatting — the exact value rounded to 12 significant decimal digits,
half to even — with `.0` appended when the result has neither `.` nor
`e` (`PyOS_double_to_string` with `Py_DTSF_ADD_DOT_0`).  `float(s)`
evaluates the decimal literal and rounds it to the nearest double; the
model returns the exact value of the literal (`DecVal`), which agrees
with the program whenever that value is exactly representable as a
double — in particular on every literal appearing in the theorems
below. -/

/-- A CPython float: the dyadic rational `m / 2^k`. -/
structure PyFloat where
  m : Int
  k : Nat
deriving Repr

/-- The exact value of a decimal literal: `n / 10^j`. -/
structure DecVal where
  n : Int
  j : Nat
deriving Repr

/-- Python `==` between the original double and the decoded value
(numeric comparison of the exact values, by cross-multiplication). -/
def floatValEq (f : PyFloat) (d : DecVal) : Bool :=
  f.m * (10 : Int) ^ d.j == d.n * (2 : Int) ^ f.k

/-- Number of decimal digits (`0` for `0`). -/
def digitCount (n : Nat) : Nat := (natDigits n).length

/-- Strip trailing decimal zeros: `stripZerosAux fuel n = (s, z)` with
`n = s * 10^z` and `10 ∤ s` (for `n ≠ 0` and enough fuel). -/
def stripZerosAux : Nat → Nat → Nat × Nat
  | 0, n => (n, 0)
  | fuel + 1, n =>
    if n % 10 = 0 ∧ n ≠ 0 then
      let (s, z) := stripZerosAux fuel (n / 10)
      (s, z + 1)
    else (n, 0)

def stripZeros (n : Nat) : Nat × Nat := stripZerosAux n n

/-- Round the positive integer `N` (the exact decimal digit string of
the scaled value) to 12 significant digits, half to even: `(digits12,
carry)` where `digits12` has exactly 12 digits and `carry = 1` when
rounding overflowed into a new leading digit. -/
def round12 (N : Nat) : Nat × Nat :=
  let L := digitCount N
  if L ≤ 12 then (N * 10 ^ (12 - L), 0)
  else
    let t := L - 12
    let q := N / 10 ^ t
    let r := N % 10 ^ t
    let half := 5 * 10 ^ (t - 1)
    let q2 := if half < r ∨ (r = half ∧ q % 2 = 1) then q + 1 else q
    if q2 = 10 ^ 12 then (10 ^ 11, 1) else (q2, 0)

def zeroChars (n : Nat) : List Char := List.replicate n '0'

/-- `'%.12g'` on the positive dyadic `a / 2^k` (`a ≠ 0`), before the
trailing-`.0` fix-up: decimal exponent `X` of the rounded value, fixed
notation with trailing zeros stripped for `-4 ≤ X ≤ 11`, scientific
notation (two-digit-minimum exponent) otherwise. -/
def fmtG12 (a k : Nat) : String :=
  let N := a * 5 ^ k
  let L := digitCount N
  let (d12, carry) := round12 N
  let X : Int := (L : Int) - 1 - (k : Int) + (carry : Int)
  let (sig, z) := stripZeros d12
  let s := 12 - z
  let ds := (pyNatStr sig).data
  if -4 ≤ X ∧ X ≤ 11 then
    if (s : Int) - 1 ≤ X then
      ⟨ds ++ zeroChars (X - ((s : Int) - 1)).toNat⟩
    else if 0 ≤ X then
      ⟨ds.take (X.toNat + 1) ++ ['.'] ++ ds.drop (X.toNat + 1)⟩
    else
      ⟨['0', '.'] ++ zeroChars ((-X).toNat - 1) ++ ds⟩
  else
    let mant : List Char :=
      if s = 1 then ds else ds.take 1 ++ ['.'] ++ ds.drop 1
    let esign := if X < 0 then '-' else '+'
    let edig := (pyNatStr X.natAbs).data
    let edig := if edig.length < 2 then '0' :: edig else edig
    ⟨mant ++ ['e', esign] ++ edig⟩

/-- Python 2.7 `str` on a finite float. -/
def pyFloatStr (f : PyFloat) : String :=
  if f.m = 0 then "0.0"
  else
    let body := fmtG12 f.m.natAbs f.k
    let body :=
      if body.data.contains '.' ∨ body.data.contains 'e' then body
      else body ++ ".0"
    if f.m < 0 then "-" ++ body else body

/-- Split a character list at the first `'.'`. -/
def splitAtDot : List Char → List Char × Option (List Char)
  | [] => ([], Option.none)
  | c :: cs =>
    if c = '.' then ([], Option.some cs)
    else
      let (a, b) := splitAtDot cs
      (c :: a, b)

/-- Split a character list at the first `'e'` or `'E'`. -/
def splitAtE : List Char → List Char × Option (List Char)
  | [] => ([], Option.none)
  | c :: cs =>
    if c = 'e' ∨ c = 'E' then ([], Option.some cs)
    else
      let (a, b) := splitAtE cs
      (c :: a, b)

/-- The exponent part of a float literal (optional sign, digits). -/
def pyParseExp : List Char → Option Int
  | [] => Option.none
  | c :: cs =>
    if c = '-' then (pyParseNat cs).map (fun n => -(n : Int))
    else if c = '+' then (pyParseNat cs).map (fun n => (n : Int))
    else (pyParseNat (c :: cs)).map (fun n => (n : Int))

/-- An unsigned float literal: digits with optional fraction and
optional exponent; at least one mantissa digit. -/
def pyParseFloatUnsigned (cs : List Char) : Option DecVal :=
  let (mantPart, expPart) := splitAtE cs
  let (ipart, fpartO) := splitAtDot mantPart
  let fpart := fpartO.getD []
  if (ipart ++ fpart) = [] then Option.none
  else if (ipart ++ fpart).all isDigitCh then
    let n : Nat := Nat.ofDigits 10 (((ipart ++ fpart).map charVal).reverse)
    let j : Nat := fpart.length
    match expPart with
    | Option.none => Option.some ⟨(n : Int), j⟩
    | Option.some es =>
      match pyParseExp es with
      | Option.none => Option.none
      | Option.some e =>
        if (j : Int) ≤ e then
          Option.some ⟨(n : Int) * 10 ^ (e - (j : Int)).toNat, 0⟩
        else Option.some ⟨(n : Int), ((j : Int) - e).toNat⟩
  else Option.none

/-- Python `float` applied to a string: the exact value of the decimal
literal (CPython then rounds it to the nearest double; exact inputs are
unchanged by that step); malformed text raises `ValueError`, modelled as
`none`. -/
def pyParseFloat (s : String) : Option DecVal :=
  match s.data with
  | [] => Option.none
  | c :: cs =>
    if c = '-' then (pyParseFloatUnsigned cs).map (fun d => ⟨-d.n, d.j⟩)
    else if c = '+' then pyParseFloatUnsigned cs
    else pyParseFloatUnsigned (c :: cs)

/-- `_serialize_float(inp, memo)` (lines 172-175). -/
def serialize_float (f : PyFloat) : Doc := .scalar "float" (pyFloatStr f)

/-- `_deserialize_float(value)` (lines 177-179). -/
def deserialize_float (v : String) : Option DecVal := pyParseFloat v

/-! # Theorems -/

theorem natDigitsAux_eq_digits :
    ∀ fuel n, n ≤ fuel → natDigitsAux fuel n = Nat.digits 10 n := by
  intro fuel
  induction fuel with
  | zero =>
    intro n hn
    interval_cases n
    simp [natDigitsAux]
  | succ f ih =>
    intro n hn
    match n with
    | 0 => simp [natDigitsAux]
    | m + 1 =>
      rw [show natDigitsAux (f + 1) (m + 1)
          = ((m + 1) % 10) :: natDigitsAux f ((m + 1) / 10) from rfl]
      rw [ih ((m + 1) / 10) (by omega)]
      rw [Nat.digits_def' (by norm_num : 1 < 10) (Nat.succ_pos m)]

theorem natDigits_eq_digits (n : Nat) : natDigits n = Nat.digits 10 n :=
  natDigitsAux_eq_digits n n le_rfl

/-! ## Decimal round trip -/

theorem charVal_digitChar {d : Nat} (hd : d < 10) : charVal (digitChar d) = d := by
  interval_cases d <;> decide

theorem isDigitCh_digitChar {d : Nat} (hd : d < 10) : isDigitCh (digitChar d) = true := by
  interval_cases d <;> decide

theorem isDigitCh_ne_dash {c : Char} (hc : isDigitCh c = true) : c ≠ '-' := by
  rintro rfl
  simp [isDigitCh] at hc

theorem pyNatStr_all_digits (n : Nat) :
    ∀ c ∈ (pyNatStr n).data, isDigitCh c = true := by
  intro c hc
  unfold pyNatStr at hc
  by_cases h : n = 0
  · simp [h] at hc
    subst hc
    decide
  · simp [h, natDigits_eq_digits] at hc
    rcases hc with ⟨d, hd, rfl⟩
    exact isDigitCh_digitChar (Nat.digits_lt_base (by norm_num) hd)

theorem pyNatStr_data_ne_nil (n : Nat) : (pyNatStr n).data ≠ [] := by
  unfold pyNatStr
  by_cases h : n = 0
  · simp [h]
  · simp only [h, if_false]
    show (((natDigits n).map digitChar).reverse) ≠ []
    rw [natDigits_eq_digits]
    simp [Nat.digits_ne_nil_iff_ne_zero.mpr h]

theorem pyParseNat_pyNatStr (n : Nat) : pyParseNat (pyNatStr n).data = some n := by
  unfold pyParseNat
  rw [if_pos]
  · congr 1
    unfold pyNatStr
    by_cases h : n = 0
    · simp [h]
      decide
    · simp only [h, if_false]
      show Nat.ofDigits 10
        (((((natDigits n).map digitChar).reverse).map charVal).reverse) = n
      rw [natDigits_eq_digits]
      rw [← List.map_reverse, List.reverse_reverse, List.map_map]
      have hid : (Nat.digits 10 n).map (charVal ∘ digitChar) = Nat.digits 10 n := by
        have : ∀ d ∈ Nat.digits 10 n, (charVal ∘ digitChar) d = id d := by
          intro d hd
          exact charVal_digitChar (Nat.digits_lt_base (by norm_num) hd)
        rw [List.map_congr_left this, List.map_id]
      rw [hid]
      exact Nat.ofDigits_digits 10 n
  · exact ⟨pyNatStr_data_ne_nil n,
      List.all_eq_true.mpr (fun c hc => pyNatStr_all_digits n c hc)⟩

theorem filter_length_mono {p q : Nat → Bool} :
    ∀ l : List Nat, (∀ i ∈ l, p i = true → q i = true) →
      (l.filter p).length ≤ (l.filter q).length := by
  intro l
  induction l with
  | nil => intro _; simp
  | cons x xs ih =>
    intro hpq
    have htail := ih (fun i hi => hpq i (List.mem_cons_of_mem _ hi))
    by_cases hp : p x = true
    · have hq := hpq x (List.mem_cons_self _ _) hp
      simp [List.filter_cons, hp, hq]
      omega
    · simp only [Bool.not_eq_true] at hp
      by_cases hq : q x = true
      · simp [List.filter_cons, hp, hq]
        omega
      · simp only [Bool.not_eq_true] at hq
        simp [List.filter_cons, hp, hq]
        omega

theorem filter_length_strict {p q : Nat → Bool} :
    ∀ l : List Nat, (∀ i ∈ l, p i = true → q i = true) →
      ∀ a ∈ l, q a = true → p a = false →
      (l.filter p).length < (l.filter q).length := by
  intro l
  induction l with
  | nil => intro _ a ha; simp at ha
  | cons x xs ih =>
    intro hpq a ha hqa hpa
    have htailmono := filter_length_mono xs (fun i hi => hpq i (List.mem_cons_of_mem _ hi))
    rcases List.mem_cons.mp ha with rfl | hatail
    · simp [List.filter_cons, hpa, hqa]
      omega
    · have htail := ih (fun i hi => hpq i (List.mem_cons_of_mem _ hi)) a hatail hqa hpa
      by_cases hp : p x = true
      · have hq := hpq x (List.mem_cons_self _ _) hp
        simp [List.filter_cons, hp, hq]
        omega
      · simp only [Bool.not_eq_true] at hp
        by_cases hq : q x = true
        · simp [List.filter_cons, hp, hq]
          omega
        · simp only [Bool.not_eq_true] at hq
          simp [List.filter_cons, hp, hq]
          omega

theorem cmem_mono {h : Heap} {m m' : List Nat} (hmm : m ⊆ m') :
    cmem h m' ≤ cmem h m := by
  apply filter_length_mono
  intro i _ hp
  simp only [Bool.and_eq_true, Bool.not_eq_true', decide_eq_false_iff_not] at hp ⊢
  exact ⟨hp.1, fun hc => hp.2 (hmm hc)⟩

theorem cmem_le_length (h : Heap) (m : List Nat) : cmem h m ≤ h.length := by
  calc ((List.range h.length).filter _).length
      ≤ (List.range h.length).length := List.length_filter_le _ _
    _ = h.length := List.length_range _

theorem cmem_strict {h : Heap} {m : List Nat} {a : Nat} {o : PyObj}
    (ha : h[a]? = Option.some o) (hc : o.isContainer = true) (hnm : a ∉ m) :
    cmem h (a :: m) < cmem h m := by
  apply filter_length_strict
  · intro i _ hp
    simp only [Bool.and_eq_true, Bool.not_eq_true', decide_eq_false_iff_not,
      List.mem_cons] at hp ⊢
    exact ⟨hp.1, fun hc' => hp.2 (Or.inr hc')⟩
  · apply List.mem_range.mpr
    rcases List.getElem?_eq_some.mp ha with ⟨hlt, _⟩
    exact hlt
  · simp only [Bool.and_eq_true, Bool.not_eq_true', decide_eq_false_iff_not]
    refine ⟨?_, hnm⟩
    have : h.getD a .none = o := by
      simp [List.getD, ha]
    rw [this]
    exact hc
  · simp [List.mem_cons]

/-! ### Generic facts about the element loops -/

theorem encSeq_mono {f : List Nat → Nat → Except EncErr (Doc × List Nat)}
    (hf : ∀ m e d m', f m e = .ok (d, m') → m ⊆ m') :
    ∀ es m ds m', encSeq f m es = .ok (ds, m') → m ⊆ m' := by
  intro es
  induction es with
  | nil =>
    intro m ds m' hok
    simp [encSeq] at hok
    rw [← hok.2]
    exact List.Subset.refl m
  | cons e es ih =>
    intro m ds m' hok
    simp only [encSeq, bind, Except.bind] at hok
    split at hok
    · exact absurd hok (by simp)
    · next r heq =>
      split at hok
      · exact absurd hok (by simp)
      · next r1 heq1 =>
        simp only [Except.ok.injEq, Prod.mk.injEq] at hok
        intro x hx
        have h1 : m ⊆ r.2 := hf m e r.1 r.2 (by rw [heq])
        have h2 : r.2 ⊆ r1.2 := ih r.2 r1.1 r1.2 (by rw [heq1])
        rw [← hok.2]
        exact h2 (h1 hx)

theorem encPairs_mono {f : List Nat → Nat → Except EncErr (Doc × List Nat)}
    (hf : ∀ m e d m', f m e = .ok (d, m') → m ⊆ m') :
    ∀ ps m ds m', encPairs f m ps = .ok (ds, m') → m ⊆ m' := by
  intro ps
  induction ps with
  | nil =>
    intro m ds m' hok
    simp [encPairs] at hok
    rw [← hok.2]
    exact List.Subset.refl m
  | cons p ps ih =>
    intro m ds m' hok
    rcases p with ⟨k, v⟩
    simp only [encPairs, bind, Except.bind] at hok
    split at hok
    · exact absurd hok (by simp)
    · next r heq =>
      split at hok
      · exact absurd hok (by simp)
      · next r1 heq1 =>
        split at hok
        · exact absurd hok (by simp)
        · next r2 heq2 =>
          simp only [Except.ok.injEq, Prod.mk.injEq] at hok
          intro x hx
          have h1 : m ⊆ r.2 := hf m k r.1 r.2 (by rw [heq])
          have h2 : r.2 ⊆ r1.2 := hf r.2 v r1.1 r1.2 (by rw [heq1])
          have h3 : r1.2 ⊆ r2.2 := ih r1.2 r2.1 r2.2 (by rw [heq2])
          rw [← hok.2]
          exact h3 (h2 (h1 hx))

theorem encSeq_elem {f : List Nat → Nat → Except EncErr (Doc × List Nat)}
    (hf : ∀ m e d m', f m e = .ok (d, m') → m ⊆ m') :
    ∀ es m ds m', encSeq f m es = .ok (ds, m') →
      ∀ e ∈ es, ∃ m₀ d₁ m₁, m ⊆ m₀ ∧ f m₀ e = .ok (d₁, m₁) := by
  intro es
  induction es with
  | nil =>
    intro m ds m' _ e he
    simp at he
  | cons x xs ih =>
    intro m ds m' hok e he
    simp only [encSeq, bind, Except.bind] at hok
    split at hok
    · exact absurd hok (by simp)
    · next r heq =>
      split at hok
      · exact absurd hok (by simp)
      · next r1 heq1 =>
        rcases List.mem_cons.mp he with rfl | hxs
        · exact ⟨m, r.1, r.2, List.Subset.refl m, by rw [heq]⟩
        · rcases ih r.2 r1.1 r1.2 (by rw [heq1]) e hxs with ⟨m₀, d₁, m₁, hsub, hfe⟩
          exact ⟨m₀, d₁, m₁,
            fun y hy => hsub (hf m x r.1 r.2 (by rw [heq]) hy), hfe⟩

theorem encPairs_elem {f : List Nat → Nat → Except EncErr (Doc × List Nat)}
    (hf : ∀ m e d m', f m e = .ok (d, m') → m ⊆ m') :
    ∀ ps m ds m', encPairs f m ps = .ok (ds, m') →
      ∀ kv ∈ ps, ∀ e, (e = kv.1 ∨ e = kv.2) →
        ∃ m₀ d₁ m₁, m ⊆ m₀ ∧ f m₀ e = .ok (d₁, m₁) := by
  intro ps
  induction ps with
  | nil =>
    intro m ds m' _ kv hkv
    simp at hkv
  | cons p ps ih =>
    intro m ds m' hok kv hkv e he
    rcases p with ⟨k, v⟩
    simp only [encPairs, bind, Except.bind] at hok
    split at hok
    · exact absurd hok (by simp)
    · next r heq =>
      split at hok
      · exact absurd hok (by simp)
      · next r1 heq1 =>
        split at hok
        · exact absurd hok (by simp)
        · next r2 heq2 =>
          rcases List.mem_cons.mp hkv with rfl | hps
          · rcases he with rfl | rfl
            · exact ⟨m, r.1, r.2, List.Subset.refl m, by rw [heq]⟩
            · exact ⟨r.2, r1.1, r1.2, hf m k r.1 r.2 (by rw [heq]), by rw [heq1]⟩
          · rcases ih r1.2 r2.1 r2.2 (by rw [heq2]) kv hps e he with
              ⟨m₀, d₁, m₁, hsub, hfe⟩
            exact ⟨m₀, d₁, m₁,
              fun y hy => hsub (hf r.2 v r1.1 r1.2 (by rw [heq1])
                (hf m k r.1 r.2 (by rw [heq]) hy)), hfe⟩

theorem encSeq_no_fuelOut {f : List Nat → Nat → Except EncErr (Doc × List Nat)}
    {P : List Nat → Prop}
    (hmono : ∀ m e d m', f m e = .ok (d, m') → m ⊆ m')
    (hPmono : ∀ m m', m ⊆ m' → P m → P m')
    (hnf : ∀ m e, P m → f m e ≠ .error .fuelOut) :
    ∀ es m, P m → encSeq f m es ≠ .error .fuelOut := by
  intro es
  induction es with
  | nil =>
    intro m _ hcontra
    simp [encSeq] at hcontra
  | cons x xs ih =>
    intro m hP hcontra
    simp only [encSeq, bind, Except.bind] at hcontra
    split at hcontra
    · next er heq =>
      simp only [Except.error.injEq] at hcontra
      exact hnf m x hP (by rw [heq, hcontra])
    · next r heq =>
      split at hcontra
      · next er heq1 =>
        simp only [Except.error.injEq] at hcontra
        have hPr : P r.2 := hPmono m r.2 (hmono m x r.1 r.2 (by rw [heq])) hP
        exact ih r.2 hPr (by rw [heq1, hcontra])
      · exact absurd hcontra (by simp)

theorem encPairs_no_fuelOut {f : List Nat → Nat → Except EncErr (Doc × List Nat)}
    {P : List Nat → Prop}
    (hmono : ∀ m e d m', f m e = .ok (d, m') → m ⊆ m')
    (hPmono : ∀ m m', m ⊆ m' → P m → P m')
    (hnf : ∀ m e, P m → f m e ≠ .error .fuelOut) :
    ∀ ps m, P m → encPairs f m ps ≠ .error .fuelOut := by
  intro ps
  induction ps with
  | nil =>
    intro m _ hcontra
    simp [encPairs] at hcontra
  | cons p ps ih =>
    intro m hP hcontra
    rcases p with ⟨k, v⟩
    simp only [encPairs, bind, Except.bind] at hcontra
    split at hcontra
    · next er heq =>
      simp only [Except.error.injEq] at hcontra
      exact hnf m k hP (by rw [heq, hcontra])
    · next r heq =>
      have hPr : P r.2 := hPmono m r.2 (hmono m k r.1 r.2 (by rw [heq])) hP
      split at hcontra
      · next er heq1 =>
        simp only [Except.error.injEq] at hcontra
        exact hnf r.2 v hPr (by rw [heq1, hcontra])
      · next r1 heq1 =>
        have hPr1 : P r1.2 :=
          hPmono r.2 r1.2 (hmono r.2 v r1.1 r1.2 (by rw [heq1])) hPr
        split at hcontra
        · next er heq2 =>
          simp only [Except.error.injEq] at hcontra
          exact ih r1.2 hPr1 (by rw [heq2, hcontra])
        · exact absurd hcontra (by simp)

theorem encSeq_err_class {f : List Nat → Nat → Except EncErr (Doc × List Nat)}
    {Q : Nat → Prop}
    (hf : ∀ m e, Q e → ∀ er, f m e = .error er → er = .circular ∨ er = .fuelOut) :
    ∀ es m, (∀ e ∈ es, Q e) → ∀ er, encSeq f m es = .error er →
      er = .circular ∨ er = .fuelOut := by
  intro es
  induction es with
  | nil =>
    intro m _ er her
    simp [encSeq] at her
  | cons x xs ih =>
    intro m hQ er her
    simp only [encSeq, bind, Except.bind] at her
    split at her
    · next er1 heq =>
      simp only [Except.error.injEq] at her
      exact hf m x (hQ x (List.mem_cons_self _ _)) er (by rw [heq, her])
    · next r heq =>
      split at her
      · next er1 heq1 =>
        simp only [Except.error.injEq] at her
        exact ih r.2 (fun e he => hQ e (List.mem_cons_of_mem _ he)) er
          (by rw [heq1, her])
      · exact absurd her (by simp)

theorem encPairs_err_class {f : List Nat → Nat → Except EncErr (Doc × List Nat)}
    {Q : Nat → Prop}
    (hf : ∀ m e, Q e → ∀ er, f m e = .error er → er = .circular ∨ er = .fuelOut) :
    ∀ ps m, (∀ kv ∈ ps, Q kv.1 ∧ Q kv.2) → ∀ er, encPairs f m ps = .error er →
      er = .circular ∨ er = .fuelOut := by
  intro ps
  induction ps with
  | nil =>
    intro m _ er her
    simp [encPairs] at her
  | cons p ps ih =>
    intro m hQ er her
    rcases p with ⟨k, v⟩
    simp only [encPairs, bind, Except.bind] at her
    split at her
    · next er1 heq =>
      simp only [Except.error.injEq] at her
      exact hf m k (hQ (k, v) (List.mem_cons_self _ _)).1 er (by rw [heq, her])
    · next r heq =>
      split at her
      · next er1 heq1 =>
        simp only [Except.error.injEq] at her
        exact hf r.2 v (hQ (k, v) (List.mem_cons_self _ _)).2 er (by rw [heq1, her])
      · next r1 heq1 =>
        split at her
        · next er1 heq2 =>
          simp only [Except.error.injEq] at her
          exact ih r1.2 (fun kv hkv => hQ kv (List.mem_cons_of_mem _ hkv)) er
            (by rw [heq2, her])
        · exact absurd her (by simp)

/-! ### Facts about `_encode` itself -/

theorem encodeA_mono (h : Heap) :
    ∀ fuel m a d m', encodeA h fuel m a = .ok (d, m') → m ⊆ m' ∧ a ∈ m' := by
  intro fuel
  induction fuel with
  | zero =>
    intro m a d m' hok
    simp [encodeA] at hok
  | succ f ih =>
    intro m a d m' hok
    have ihf : ∀ m e d m', (fun m e => encodeA h f m e) m e = .ok (d, m') → m ⊆ m' :=
      fun m e d m' hk => (ih m e d m' hk).1
    simp only [encodeA] at hok
    split at hok
    · exact absurd hok (by simp)
    · next o heq =>
      split at hok
      · exact absurd hok (by simp)
      · next hnotc =>
        split at hok
        any_goals
          simp only [Except.ok.injEq, Prod.mk.injEq] at hok
          rw [← hok.2]
          exact ⟨List.subset_cons_self a m, List.mem_cons_self a m⟩
        -- opaque case: error ≠ ok
        case _ => exact absurd hok (by simp)
        -- container cases
        case _ es =>
          split at hok
          · next ds2 m2 heq2 =>
            simp only [Except.ok.injEq, Prod.mk.injEq] at hok
            have hsub : (a :: m) ⊆ m2 := encSeq_mono ihf es (a :: m) ds2 m2 heq2
            rw [← hok.2]
            exact ⟨fun x hx => hsub (List.mem_cons_of_mem a hx),
              hsub (List.mem_cons_self a m)⟩
          · exact absurd hok (by simp)
        case _ es =>
          split at hok
          · next ds2 m2 heq2 =>
            simp only [Except.ok.injEq, Prod.mk.injEq] at hok
            have hsub : (a :: m) ⊆ m2 := encSeq_mono ihf es (a :: m) ds2 m2 heq2
            rw [← hok.2]
            exact ⟨fun x hx => hsub (List.mem_cons_of_mem a hx),
              hsub (List.mem_cons_self a m)⟩
          · exact absurd hok (by simp)
        case _ ps =>
          split at hok
          · next ds2 m2 heq2 =>
            simp only [Except.ok.injEq, Prod.mk.injEq] at hok
            have hsub : (a :: m) ⊆ m2 := encPairs_mono ihf ps (a :: m) ds2 m2 heq2
            rw [← hok.2]
            exact ⟨fun x hx => hsub (List.mem_cons_of_mem a hx),
              hsub (List.mem_cons_self a m)⟩
          · exact absurd hok (by simp)

theorem encodeA_no_fuelOut (h : Heap) :
    ∀ fuel m a, cmem h m < fuel → encodeA h fuel m a ≠ .error .fuelOut := by
  intro fuel
  induction fuel with
  | zero =>
    intro m a hm
    exact absurd hm (Nat.not_lt_zero _)
  | succ f ih =>
    intro m a hm hcontra
    simp only [encodeA] at hcontra
    split at hcontra
    · simp at hcontra
    · next o heq =>
      split at hcontra
      · simp at hcontra
      · next hnotc =>
        have hmono : ∀ m e d m', (fun m e => encodeA h f m e) m e = .ok (d, m') → m ⊆ m' :=
          fun m e d m' hk => (encodeA_mono h f m e d m' hk).1
        have hPmono : ∀ m m' : List Nat, m ⊆ m' → cmem h m < f → cmem h m' < f :=
          fun m m' hsub hP => lt_of_le_of_lt (cmem_mono hsub) hP
        split at hcontra
        any_goals simp at hcontra
        case _ es =>
          split at hcontra
          · simp at hcontra
          · next e2 heq2 =>
            simp only [Except.error.injEq] at hcontra
            subst hcontra
            have hstrict : cmem h (a :: m) < cmem h m :=
              cmem_strict heq rfl (fun ha => hnotc ⟨ha, rfl⟩)
            exact encSeq_no_fuelOut hmono hPmono (fun m e hP => ih m e hP)
              es (a :: m) (by omega) heq2
        case _ es =>
          split at hcontra
          · simp at hcontra
          · next e2 heq2 =>
            simp only [Except.error.injEq] at hcontra
            subst hcontra
            have hstrict : cmem h (a :: m) < cmem h m :=
              cmem_strict heq rfl (fun ha => hnotc ⟨ha, rfl⟩)
            exact encSeq_no_fuelOut hmono hPmono (fun m e hP => ih m e hP)
              es (a :: m) (by omega) heq2
        case _ ps =>
          split at hcontra
          · simp at hcontra
          · next e2 heq2 =>
            simp only [Except.error.injEq] at hcontra
            subst hcontra
            have hstrict : cmem h (a :: m) < cmem h m :=
              cmem_strict heq rfl (fun ha => hnotc ⟨ha, rfl⟩)
            exact encPairs_no_fuelOut hmono hPmono (fun m e hP => ih m e hP)
              ps (a :: m) (by omega) heq2

theorem encodeA_err_class (h : Heap) (hcl : Closed h) (hno : NoOpaque h) :
    ∀ fuel m a, a < h.length → ∀ er, encodeA h fuel m a = .error er →
      er = .circular ∨ er = .fuelOut := by
  intro fuel
  induction fuel with
  | zero =>
    intro m a _ er her
    simp only [encodeA, Except.error.injEq] at her
    exact Or.inr her.symm
  | succ f ih =>
    intro m a ha er her
    have ihf : ∀ m e, e < h.length → ∀ er,
        (fun m e => encodeA h f m e) m e = .error er →
        er = .circular ∨ er = .fuelOut :=
      fun m e he er hk => ih m e he er hk
    simp only [encodeA] at her
    split at her
    · next heq =>
      rw [List.getElem?_eq_none_iff] at heq
      omega
    · next o heq =>
      have homem : o ∈ h := by
        rcases List.getElem?_eq_some.mp heq with ⟨hlt, helem⟩
        rw [← helem]
        exact List.getElem_mem hlt
      split at her
      · simp only [Except.error.injEq] at her
        exact Or.inl her.symm
      · next hnotc =>
        split at her
        any_goals simp at her
        -- opaque: contradicts NoOpaque
        case _ ty => exact absurd rfl (hno _ homem ty)
        case _ es =>
          split at her
          · simp at her
          · next e2 heq2 =>
            simp only [Except.error.injEq] at her
            rw [← her]
            exact encSeq_err_class ihf es (a :: m)
              (fun e he => hcl a (.list es) heq e he) e2 heq2
        case _ es =>
          split at her
          · simp at her
          · next e2 heq2 =>
            simp only [Except.error.injEq] at her
            rw [← her]
            exact encSeq_err_class ihf es (a :: m)
              (fun e he => hcl a (.tuple es) heq e he) e2 heq2
        case _ ps =>
          split at her
          · simp at her
          · next e2 heq2 =>
            simp only [Except.error.injEq] at her
            rw [← her]
            refine encPairs_err_class ihf ps (a :: m) ?_ e2 heq2
            intro kv hkv
            constructor
            · refine hcl a (.dict ps) heq kv.1 ?_
              simp only [PyObj.elems, List.mem_flatMap]
              exact ⟨kv, hkv, by simp⟩
            · refine hcl a (.dict ps) heq kv.2 ?_
              simp only [PyObj.elems, List.mem_flatMap]
              exact ⟨kv, hkv, by simp⟩

/-- Once a container is in the memo, a second `_encode` of it inside the
same top-level call raises the circular-reference error immediately. -/
theorem encodeA_mem_circular (h : Heap) (fuel : Nat) {m : List Nat} {a : Nat}
    {o : PyObj} (ha : h[a]? = Option.some o) (hc : o.isContainer = true)
    (hm : a ∈ m) : encodeA h (fuel + 1) m a = .error .circular := by
  simp only [encodeA, ha]
  rw [if_pos ⟨hm, hc⟩]

theorem encodeA_cycle_aux (h : Heap) :
    ∀ fuel m b a, a ∈ m → (∃ o : PyObj, h[a]? = Option.some o ∧ o.isContainer) →
      Relation.ReflTransGen (Edge h) b a →
      ∀ d m', encodeA h fuel m b ≠ .ok (d, m') := by
  intro fuel
  induction fuel with
  | zero =>
    intro m b a _ _ _ d m' hok
    simp [encodeA] at hok
  | succ f ih =>
    intro m b a ham hacont hrtg d m' hok
    have hmono : ∀ m e d m', (fun m e => encodeA h f m e) m e = .ok (d, m') → m ⊆ m' :=
      fun m e d m' hk => (encodeA_mono h f m e d m' hk).1
    rcases Relation.ReflTransGen.cases_head hrtg with rfl | ⟨c, hedge, hrtg'⟩
    · rcases hacont with ⟨o, ho, hc⟩
      rw [encodeA_mem_circular h f ho hc ham] at hok
      cases hok
    · rcases hedge with ⟨ob, hob, hcel⟩
      simp only [encodeA] at hok
      split at hok
      · next heq => simp at hok
      · next o heq =>
        have hoeq : o = ob := by
          rw [heq] at hob
          exact Option.some.inj hob
        split at hok
        · simp at hok
        · next hnotc =>
          split at hok
          -- scalar and opaque cases: c cannot be an element
          any_goals
            (exfalso
             subst hoeq
             simp [PyObj.elems] at hcel
             done)
          case _ es =>
            split at hok
            · next ds2 m2 heq2 =>
              have hces : c ∈ es := by
                have : PyObj.list es = ob := hoeq
                rw [← this] at hcel
                simpa [PyObj.elems] using hcel
              rcases encSeq_elem hmono es (b :: m) ds2 m2 heq2 c hces with
                ⟨m₀, d₁, m₁, hsub, hfe⟩
              exact ih m₀ c a (hsub (List.mem_cons_of_mem b ham)) hacont hrtg' d₁ m₁ hfe
            · simp at hok
          case _ es =>
            split at hok
            · next ds2 m2 heq2 =>
              have hces : c ∈ es := by
                have : PyObj.tuple es = ob := hoeq
                rw [← this] at hcel
                simpa [PyObj.elems] using hcel
              rcases encSeq_elem hmono es (b :: m) ds2 m2 heq2 c hces with
                ⟨m₀, d₁, m₁, hsub, hfe⟩
              exact ih m₀ c a (hsub (List.mem_cons_of_mem b ham)) hacont hrtg' d₁ m₁ hfe
            · simp at hok
          case _ ps =>
            split at hok
            · next ds2 m2 heq2 =>
              have hcps : ∃ kv ∈ ps, c = kv.1 ∨ c = kv.2 := by
                have : PyObj.dict ps = ob := hoeq
                rw [← this] at hcel
                simp only [PyObj.elems, List.mem_flatMap] at hcel
                rcases hcel with ⟨kv, hkv, hmem⟩
                simp only [List.mem_cons, List.mem_singleton] at hmem
                rcases hmem with rfl | rfl | hfalse
                · exact ⟨kv, hkv, Or.inl rfl⟩
                · exact ⟨kv, hkv, Or.inr rfl⟩
                · simp at hfalse
              rcases hcps with ⟨kv, hkv, hor⟩
              rcases encPairs_elem hmono ps (b :: m) ds2 m2 heq2 kv hkv c hor with
                ⟨m₀, d₁, m₁, hsub, hfe⟩
              exact ih m₀ c a (hsub (List.mem_cons_of_mem b ham)) hacont hrtg' d₁ m₁ hfe
            · simp at hok

/-- A container that contains itself (directly or transitively) can never
be successfully encoded. -/
theorem encodeA_cycle_not_ok (h : Heap) (a : Nat) (hcyc : Reaches h a a) :
    ∀ fuel m d m', encodeA h fuel m a ≠ .ok (d, m') := by
  have hstep : ∃ c, Edge h a c ∧ Relation.ReflTransGen (Edge h) c a :=
    Relation.TransGen.head'_iff.mp hcyc
  rcases hstep with ⟨c, hedge, hrtg⟩
  have hacont : ∃ o : PyObj, h[a]? = Option.some o ∧ o.isContainer := by
    rcases hedge with ⟨o, ho, hmem⟩
    refine ⟨o, ho, ?_⟩
    cases o <;> simp [PyObj.elems] at hmem <;> rfl
  intro fuel m d m' hok
  match fuel with
  | 0 => simp [encodeA] at hok
  | f + 1 =>
    have hmono : ∀ m e d m', (fun m e => encodeA h f m e) m e = .ok (d, m') → m ⊆ m' :=
      fun m e d m' hk => (encodeA_mono h f m e d m' hk).1
    rcases hedge with ⟨ob, hob, hcel⟩
    simp only [encodeA] at hok
    split at hok
    · simp at hok
    · next o heq =>
      have hoeq : o = ob := by
        rw [heq] at hob
        exact Option.some.inj hob
      split at hok
      · simp at hok
      · next hnotc =>
        split at hok
        any_goals
          (exfalso
           subst hoeq
           simp [PyObj.elems] at hcel
           done)
        case _ es =>
          split at hok
          · next ds2 m2 heq2 =>
            have hces : c ∈ es := by
              have : PyObj.list es = ob := hoeq
              rw [← this] at hcel
              simpa [PyObj.elems] using hcel
            rcases encSeq_elem hmono es (a :: m) ds2 m2 heq2 c hces with
              ⟨m₀, d₁, m₁, hsub, hfe⟩
            exact encodeA_cycle_aux h f m₀ c a (hsub (List.mem_cons_self a m))
              hacont hrtg d₁ m₁ hfe
          · simp at hok
        case _ es =>
          split at hok
          · next ds2 m2 heq2 =>
            have hces : c ∈ es := by
              have : PyObj.tuple es = ob := hoeq
              rw [← this] at hcel
              simpa [PyObj.elems] using hcel
            rcases encSeq_elem hmono es (a :: m) ds2 m2 heq2 c hces with
              ⟨m₀, d₁, m₁, hsub, hfe⟩
            exact encodeA_cycle_aux h f m₀ c a (hsub (List.mem_cons_self a m))
              hacont hrtg d₁ m₁ hfe
          · simp at hok
        case _ ps =>
          split at hok
          · next ds2 m2 heq2 =>
            have hcps : ∃ kv ∈ ps, c = kv.1 ∨ c = kv.2 := by
              have : PyObj.dict ps = ob := hoeq
              rw [← this] at hcel
              simp only [PyObj.elems, List.mem_flatMap] at hcel
              rcases hcel with ⟨kv, hkv, hmem⟩
              simp only [List.mem_cons, List.mem_singleton] at hmem
              rcases hmem with rfl | rfl | hfalse
              · exact ⟨kv, hkv, Or.inl rfl⟩
              · exact ⟨kv, hkv, Or.inr rfl⟩
              · simp at hfalse
            rcases hcps with ⟨kv, hkv, hor⟩
            rcases encPairs_elem hmono ps (a :: m) ds2 m2 heq2 kv hkv c hor with
              ⟨m₀, d₁, m₁, hsub, hfe⟩
            exact encodeA_cycle_aux h f m₀ c a (hsub (List.mem_cons_self a m))
              hacont hrtg d₁ m₁ hfe
          · simp at hok

/-- Top-level consequence: on a closed heap of supported values, encoding a
self-reaching container reports exactly the circular-reference error. -/
theorem pyEncode_cycle_circular (h : Heap) (a : Nat) (ha : a < h.length)
    (hcl : Closed h) (hno : NoOpaque h) (hcyc : Reaches h a a) :
    pyEncode h a = .error .circular := by
  unfold pyEncode
  rcases hres : encodeA h (h.length + 1) [] a with er | ⟨d, m'⟩
  · rcases encodeA_err_class h hcl hno (h.length + 1) [] a ha er hres with rfl | rfl
    · rfl
    · exfalso
      refine encodeA_no_fuelOut h (h.length + 1) [] a ?_ hres
      have := cmem_le_length h []
      omega
  · exact absurd hres (encodeA_cycle_not_ok h a hcyc (h.length + 1) [] d m')

theorem pyParseInt_pyIntStr (i : Int) : pyParseInt (pyIntStr i) = some i := by
  unfold pyIntStr pyParseInt
  by_cases h : i < 0
  · simp only [h, if_true]
    have hdata : ("-" ++ pyNatStr i.natAbs).data = '-' :: (pyNatStr i.natAbs).data := by
      simp
    rw [hdata]
    simp [pyParseNat_pyNatStr]
    rw [abs_of_neg h]
    exact neg_neg i
  · simp only [h, if_false]
    rcases hd : (pyNatStr i.natAbs).data with _ | ⟨c, rest⟩
    · exact absurd hd (pyNatStr_data_ne_nil _)
    · have hcne : c ≠ '-' := by
        apply isDigitCh_ne_dash
        apply pyNatStr_all_digits i.natAbs
        rw [hd]
        exact List.mem_cons_self _ _
      have hparse := pyParseNat_pyNatStr i.natAbs
      rw [hd] at hparse
      simp [if_neg hcne, hparse]
      omega

/-! ### Characterization of `find_globals` -/

theorem findGlobalsAux_spec (bc : List Nat) (names : List String) :
    ∀ rem cur acc s,
      s ∈ findGlobalsAux bc names rem cur acc ↔
        s ∈ acc ∨ ∃ p ∈ instrStartsAux bc rem cur,
          bc.getD p 0 = LOAD_GLOBAL ∧ names.getD (operandAt bc p) "" = s := by
  intro rem
  induction rem with
  | zero =>
    intro cur acc s
    simp [findGlobalsAux, instrStartsAux]
  | succ r ih =>
    intro cur acc s
    by_cases hcur : cur < bc.length
    · by_cases harg : HAVE_ARGUMENT ≤ bc.getD cur 0
      · by_cases hlg : bc.getD cur 0 = LOAD_GLOBAL
        · rw [show findGlobalsAux bc names (r + 1) cur acc
              = findGlobalsAux bc names r (cur + 3)
                  (if names.getD (operandAt bc cur) "" ∈ acc then acc
                   else acc ++ [names.getD (operandAt bc cur) ""]) by
            simp only [findGlobalsAux, if_pos hcur, if_pos harg, if_pos hlg]
            rfl]
          rw [show instrStartsAux bc (r + 1) cur
              = cur :: instrStartsAux bc r (cur + 3) by
            simp only [instrStartsAux, if_pos hcur, if_pos harg]]
          rw [ih]
          have hmem : s ∈ (if names.getD (operandAt bc cur) "" ∈ acc then acc
              else acc ++ [names.getD (operandAt bc cur) ""]) ↔
              s ∈ acc ∨ names.getD (operandAt bc cur) "" = s := by
            split
            · next hin =>
              constructor
              · exact fun h => Or.inl h
              · rintro (h | rfl)
                · exact h
                · exact hin
            · simp [List.mem_append, eq_comm]
          rw [hmem]
          constructor
          · rintro ((h | h) | ⟨p, hp, hop, hname⟩)
            · exact Or.inl h
            · exact Or.inr ⟨cur, List.mem_cons_self _ _, hlg, h⟩
            · exact Or.inr ⟨p, List.mem_cons_of_mem _ hp, hop, hname⟩
          · rintro (h | ⟨p, hp, hop, hname⟩)
            · exact Or.inl (Or.inl h)
            · rcases List.mem_cons.mp hp with rfl | hp'
              · exact Or.inl (Or.inr hname)
              · exact Or.inr ⟨p, hp', hop, hname⟩
        · rw [show findGlobalsAux bc names (r + 1) cur acc
              = findGlobalsAux bc names r (cur + 3) acc by
            simp only [findGlobalsAux, if_pos hcur, if_pos harg, if_neg hlg]]
          rw [show instrStartsAux bc (r + 1) cur
              = cur :: instrStartsAux bc r (cur + 3) by
            simp only [instrStartsAux, if_pos hcur, if_pos harg]]
          rw [ih]
          constructor
          · rintro (h | ⟨p, hp, hop, hname⟩)
            · exact Or.inl h
            · exact Or.inr ⟨p, List.mem_cons_of_mem _ hp, hop, hname⟩
          · rintro (h | ⟨p, hp, hop, hname⟩)
            · exact Or.inl h
            · rcases List.mem_cons.mp hp with rfl | hp'
              · exact absurd hop hlg
              · exact Or.inr ⟨p, hp', hop, hname⟩
      · have hlg : ¬ bc.getD cur 0 = LOAD_GLOBAL := by
          intro hcontra
          rw [hcontra] at harg
          exact harg (by norm_num [HAVE_ARGUMENT, LOAD_GLOBAL])
        rw [show findGlobalsAux bc names (r + 1) cur acc
            = findGlobalsAux bc names r (cur + 1) acc by
          simp only [findGlobalsAux, if_pos hcur, if_neg harg]]
        rw [show instrStartsAux bc (r + 1) cur
            = cur :: instrStartsAux bc r (cur + 1) by
          simp only [instrStartsAux, if_pos hcur, if_neg harg]]
        rw [ih]
        constructor
        · rintro (h | ⟨p, hp, hop, hname⟩)
          · exact Or.inl h
          · exact Or.inr ⟨p, List.mem_cons_of_mem _ hp, hop, hname⟩
        · rintro (h | ⟨p, hp, hop, hname⟩)
          · exact Or.inl h
          · rcases List.mem_cons.mp hp with rfl | hp'
            · exact absurd hop hlg
            · exact Or.inr ⟨p, hp', hop, hname⟩
    · rw [show findGlobalsAux bc names (r + 1) cur acc = acc by
        simp only [findGlobalsAux, if_neg hcur]]
      rw [show instrStartsAux bc (r + 1) cur = [] by
        simp only [instrStartsAux, if_neg hcur]]
      simp

/-- `find_globals` contains exactly the names read at the `LOAD_GLOBAL`
instructions of the sequentially decoded stream. -/
theorem find_globals_mem_iff (bc : List Nat) (names : List String) (s : String) :
    s ∈ find_globals bc names ↔
      ∃ p ∈ instrStarts bc, bc.getD p 0 = LOAD_GLOBAL ∧
        names.getD (operandAt bc p) "" = s := by
  rw [find_globals, instrStarts, findGlobalsAux_spec]
  simp

theorem findGlobalsAux_nodup (bc : List Nat) (names : List String) :
    ∀ rem cur acc, acc.Nodup → (findGlobalsAux bc names rem cur acc).Nodup := by
  intro rem
  induction rem with
  | zero =>
    intro cur acc hacc
    simpa [findGlobalsAux] using hacc
  | succ r ih =>
    intro cur acc hacc
    by_cases hcur : cur < bc.length
    · by_cases harg : HAVE_ARGUMENT ≤ bc.getD cur 0
      · by_cases hlg : bc.getD cur 0 = LOAD_GLOBAL
        · rw [show findGlobalsAux bc names (r + 1) cur acc
              = findGlobalsAux bc names r (cur + 3)
                  (if names.getD (operandAt bc cur) "" ∈ acc then acc
                   else acc ++ [names.getD (operandAt bc cur) ""]) by
            simp only [findGlobalsAux, if_pos hcur, if_pos harg, if_pos hlg]
            rfl]
          apply ih
          split
          · exact hacc
          · next hnotin =>
            rw [List.nodup_append]
            refine ⟨hacc, List.nodup_singleton _, ?_⟩
            intro a ha hb
            simp only [List.mem_singleton] at hb
            subst hb
            exact hnotin ha
        · rw [show findGlobalsAux bc names (r + 1) cur acc
              = findGlobalsAux bc names r (cur + 3) acc by
            simp only [findGlobalsAux, if_pos hcur, if_pos harg, if_neg hlg]]
          exact ih _ _ hacc
      · rw [show findGlobalsAux bc names (r + 1) cur acc
            = findGlobalsAux bc names r (cur + 1) acc by
          simp only [findGlobalsAux, if_pos hcur, if_neg harg]]
        exact ih _ _ hacc
    · rw [show findGlobalsAux bc names (r + 1) cur acc = acc by
        simp only [findGlobalsAux, if_neg hcur]]
      exact hacc

/-- The walker's result has set semantics: no duplicates. -/
theorem find_globals_nodup (bc : List Nat) (names : List String) :
    (find_globals bc names).Nodup :=
  findGlobalsAux_nodup bc names bc.length 0 [] List.nodup_nil

/-- Completeness, as used by the runtime simulation: any name the machine
reads through `LOAD_GLOBAL` at an instruction boundary was found by the
walker. -/
theorem find_globals_complete {bc : List Nat} {names : List String} {p : Nat}
    (hp : p ∈ instrStarts bc) (hop : bc.getD p 0 = LOAD_GLOBAL) :
    names.getD (operandAt bc p) "" ∈ find_globals bc names :=
  (find_globals_mem_iff bc names _).mpr ⟨p, hp, hop, rfl⟩

theorem optVRel_getD {w : World} {S : List Nat}
    {l₁ l₂ : List (Option RVal)} (h : List.Forall₂ (OptVRel w S) l₁ l₂) :
    ∀ i, OptVRel w S (l₁.getD i Option.none) (l₂.getD i Option.none) := by
  induction h with
  | nil => intro i; trivial
  | cons hab htl ih =>
    intro i
    match i with
    | 0 => exact hab
    | j + 1 => exact ih j

theorem forall₂_set_opt {w : World} {S : List Nat} :
    ∀ {l₁ l₂ : List (Option RVal)}, List.Forall₂ (OptVRel w S) l₁ l₂ →
      ∀ i {a b}, VRel w S a b →
        List.Forall₂ (OptVRel w S) (l₁.set i (Option.some a))
          (l₂.set i (Option.some b)) := by
  intro l₁ l₂ h
  induction h with
  | nil => intro i a b _; exact List.Forall₂.nil
  | cons hab htl ih =>
    intro i a b hrel
    match i with
    | 0 => exact List.Forall₂.cons hrel htl
    | j + 1 => exact List.Forall₂.cons hab (ih j hrel)

theorem forall₂_replicate_none {w : World} {S : List Nat} (n : Nat) :
    List.Forall₂ (OptVRel w S) (List.replicate n Option.none)
      (List.replicate n Option.none) := by
  induction n with
  | zero => exact List.Forall₂.nil
  | succ k ih => exact List.Forall₂.cons trivial ih

theorem forall₂_lit_self {w : World} {S : List Nat} (vs : List PyVal) :
    List.Forall₂ (VRel w S) (vs.map RVal.lit) (vs.map RVal.lit) := by
  induction vs with
  | nil => exact List.Forall₂.nil
  | cons v vs ih => exact List.Forall₂.cons (VRel.lit v) ih

theorem pyAdd_rel {w : World} {S : List Nat} {a a' b b' : RVal}
    (ha : VRel w S a a') (hb : VRel w S b b') :
    (pyAdd a b = Option.none ∧ pyAdd a' b' = Option.none) ∨
    (∃ v, pyAdd a b = Option.some v ∧ pyAdd a' b' = Option.some v ∧
      VRel w S v v) := by
  cases ha <;> cases hb <;> simp [pyAdd]
  · next v u =>
    cases v <;> cases u <;> simp [pyAdd] <;> exact VRel.lit _

theorem pySub_rel {w : World} {S : List Nat} {a a' b b' : RVal}
    (ha : VRel w S a a') (hb : VRel w S b b') :
    (pySub a b = Option.none ∧ pySub a' b' = Option.none) ∨
    (∃ v, pySub a b = Option.some v ∧ pySub a' b' = Option.some v ∧
      VRel w S v v) := by
  cases ha <;> cases hb <;> simp [pySub]
  · next v u =>
    cases v <;> cases u <;> simp [pySub] <;> exact VRel.lit _

theorem pyEq_rel {w : World} {S : List Nat} {a a' b b' : RVal}
    (ha : VRel w S a a') (hb : VRel w S b b') : pyEq a b = pyEq a' b' := by
  cases ha <;> cases hb <;> simp [pyEq]

theorem bindArgs_rel {w : World} {S : List Nat} {args₁ args₂ : List RVal}
    (h : List.Forall₂ (VRel w S) args₁ args₂) (code : CodeObj)
    (defaults : List PyVal) :
    (bindArgs code defaults args₁ = Option.none ∧
     bindArgs code defaults args₂ = Option.none) ∨
    (∃ l₁ l₂, bindArgs code defaults args₁ = Option.some l₁ ∧
      bindArgs code defaults args₂ = Option.some l₂ ∧
      List.Forall₂ (OptVRel w S) l₁ l₂) := by
  have hlen : args₁.length = args₂.length := h.length_eq
  unfold bindArgs
  rw [← hlen]
  by_cases h1 : code.co_argcount < args₁.length
  · exact Or.inl ⟨by rw [if_pos h1], by rw [if_pos h1]⟩
  · rw [if_neg h1, if_neg h1]
    by_cases h2 : defaults.length < code.co_argcount - args₁.length
    · exact Or.inl ⟨by rw [if_pos h2], by rw [if_pos h2]⟩
    · rw [if_neg h2, if_neg h2]
      refine Or.inr ⟨_, _, rfl, rfl, ?_⟩
      refine List.rel_append ?_ (forall₂_replicate_none _)
      refine List.rel_map ?_ (List.rel_append h (forall₂_lit_self _))
      intro a b hab
      exact hab

/-- Lockstep simulation: under `SimHyp`, running any serialized function's
code against the original module namespace and against the reconstruction
namespace produces identical errors or related values, for every fuel
bound, every program counter and all related frames. -/
theorem run_sim (w : World) (G : List (String × GValue)) (ns : NS)
    (S : List Nat) (H : SimHyp w G ns S) :
    ∀ fuel fid F, fid ∈ S → w.funcs[fid]? = Option.some F →
    ∀ locals₁ locals₂ stack₁ stack₂ pc,
      List.Forall₂ (OptVRel w S) locals₁ locals₂ →
      List.Forall₂ (VRel w S) stack₁ stack₂ →
      RRel w S (run w ns fuel F.code (.orig G) locals₁ stack₁ pc)
               (run w ns fuel F.code .recon locals₂ stack₂ pc) := by
  intro fuel
  induction fuel with
  | zero =>
    intro fid F _ _ l₁ l₂ s₁ s₂ pc _ _
    exact rfl
  | succ f ih =>
    intro fid F hfid hF l₁ l₂ s₁ s₂ pc hloc hstk
    by_cases hpc : pc ∈ instrStarts F.code.co_code
    case neg =>
      simp only [run, if_neg hpc]
      exact rfl
    case pos =>
      simp only [run, if_pos hpc]
      by_cases h1 : F.code.co_code.getD pc 0 = LOAD_CONST
      · simp only [if_pos h1]
        exact ih fid F hfid hF _ _ _ _ _ hloc (List.Forall₂.cons (VRel.lit _) hstk)
      simp only [if_neg h1]
      by_cases h2 : F.code.co_code.getD pc 0 = LOAD_FAST
      · simp only [if_pos h2]
        have hg := optVRel_getD hloc (operandAt F.code.co_code pc)
        rcases hg1 : l₁.getD (operandAt F.code.co_code pc) Option.none with _ | v₁ <;>
          rcases hg2 : l₂.getD (operandAt F.code.co_code pc) Option.none with _ | v₂ <;>
          rw [hg1, hg2] at hg
        · simp only [hg1, hg2]
          exact rfl
        · exact absurd hg (by simp [OptVRel])
        · exact absurd hg (by simp [OptVRel])
        · simp only [hg1, hg2]
          exact ih fid F hfid hF _ _ _ _ _ hloc (List.Forall₂.cons hg hstk)
      simp only [if_neg h2]
      by_cases h3 : F.code.co_code.getD pc 0 = STORE_FAST
      · simp only [if_pos h3]
        cases hstk with
        | nil => exact rfl
        | cons hab htl =>
          exact ih fid F hfid hF _ _ _ _ _
            (forall₂_set_opt hloc (operandAt F.code.co_code pc) hab) htl
      simp only [if_neg h3]
      by_cases h4 : F.code.co_code.getD pc 0 = LOAD_GLOBAL
      · simp only [if_pos h4]
        have hmem := @find_globals_complete F.code.co_code F.code.co_names pc hpc h4
        have hagree := H.agree fid F hfid hF _ hmem
        rcases hg : G.lookup (F.code.co_names.getD (operandAt F.code.co_code pc) "")
            with _ | gv <;>
          rcases hn : ns.lookup (F.code.co_names.getD (operandAt F.code.co_code pc) "")
            with _ | rv <;>
          rw [hg, hn] at hagree
        · simp only [hg, hn]
          exact rfl
        · exact absurd hagree (by simp [OptVRel])
        · exact absurd hagree (by simp [OptVRel])
        · simp only [hg, hn]
          have hrel : VRel w S (gvalToR gv) rv := by
            simpa [OptVRel] using hagree
          exact ih fid F hfid hF _ _ _ _ _ hloc (List.Forall₂.cons hrel hstk)
      simp only [if_neg h4]
      by_cases h5 : F.code.co_code.getD pc 0 = POP_TOP
      · simp only [if_pos h5]
        cases hstk with
        | nil => exact rfl
        | cons hab htl => exact ih fid F hfid hF _ _ _ _ _ hloc htl
      simp only [if_neg h5]
      by_cases h6 : F.code.co_code.getD pc 0 = BINARY_ADD
      · simp only [if_pos h6]
        cases hstk with
        | nil => exact rfl
        | cons hb htl =>
          cases htl with
          | nil => exact rfl
          | cons ha htl' =>
            rcases pyAdd_rel ha hb with ⟨hn1, hn2⟩ | ⟨v, hs1, hs2, hv⟩
            · simp only [hn1, hn2]
              exact rfl
            · simp only [hs1, hs2]
              exact ih fid F hfid hF _ _ _ _ _ hloc (List.Forall₂.cons hv htl')
      simp only [if_neg h6]
      by_cases h7 : F.code.co_code.getD pc 0 = BINARY_SUBTRACT
      · simp only [if_pos h7]
        cases hstk with
        | nil => exact rfl
        | cons hb htl =>
          cases htl with
          | nil => exact rfl
          | cons ha htl' =>
            rcases pySub_rel ha hb with ⟨hn1, hn2⟩ | ⟨v, hs1, hs2, hv⟩
            · simp only [hn1, hn2]
              exact rfl
            · simp only [hs1, hs2]
              exact ih fid F hfid hF _ _ _ _ _ hloc (List.Forall₂.cons hv htl')
      simp only [if_neg h7]
      by_cases h8 : F.code.co_code.getD pc 0 = COMPARE_OP
      · simp only [if_pos h8]
        by_cases h8a : operandAt F.code.co_code pc = 2
        · simp only [if_pos h8a]
          cases hstk with
          | nil => exact rfl
          | cons hb htl =>
            cases htl with
            | nil => exact rfl
            | cons ha htl' =>
              have heq := pyEq_rel ha hb
              rcases he : pyEq _ _ with _ | bl
              · rw [he] at heq
                simp only [he, ← heq]
                exact rfl
              · rw [he] at heq
                simp only [he, ← heq]
                exact ih fid F hfid hF _ _ _ _ _ hloc
                  (List.Forall₂.cons (VRel.lit _) htl')
        · simp only [if_neg h8a]
          exact rfl
      simp only [if_neg h8]
      by_cases h9 : F.code.co_code.getD pc 0 = POP_JUMP_IF_FALSE
      · simp only [if_pos h9]
        cases hstk with
        | nil => exact rfl
        | cons hab htl =>
          cases hab with
          | lit v =>
            by_cases ht : truthy v
            · simp only [if_pos ht]
              exact ih fid F hfid hF _ _ _ _ _ hloc htl
            · simp only [if_neg ht]
              exact ih fid F hfid hF _ _ _ _ _ hloc htl
          | modul m => exact rfl
          | clsRef cid => exact rfl
          | fn hS' hF' => exact rfl
      simp only [if_neg h9]
      by_cases h10 : F.code.co_code.getD pc 0 = JUMP_ABSOLUTE
      · simp only [if_pos h10]
        exact ih fid F hfid hF _ _ _ _ _ hloc hstk
      simp only [if_neg h10]
      by_cases h11 : F.code.co_code.getD pc 0 = JUMP_FORWARD
      · simp only [if_pos h11]
        exact ih fid F hfid hF _ _ _ _ _ hloc hstk
      simp only [if_neg h11]
      by_cases h12 : F.code.co_code.getD pc 0 = RETURN_VALUE
      · simp only [if_pos h12]
        cases hstk with
        | nil => exact rfl
        | cons hab htl => exact hab
      simp only [if_neg h12]
      by_cases h13 : F.code.co_code.getD pc 0 = CALL_FUNCTION
      · simp only [if_pos h13]
        by_cases h13a : operandAt F.code.co_code pc < 256
        · simp only [if_pos h13a]
          have hlen : s₁.length = s₂.length := hstk.length_eq
          by_cases h13b : operandAt F.code.co_code pc ≤ s₁.length
          · rw [hlen] at h13b
            rw [← hlen] at h13b
            simp only [if_pos h13b, if_pos (hlen ▸ h13b)]
            have hargs : List.Forall₂ (VRel w S)
                ((s₁.take (operandAt F.code.co_code pc)).reverse)
                ((s₂.take (operandAt F.code.co_code pc)).reverse) :=
              List.forall₂_reverse_iff.mpr (List.forall₂_take _ hstk)
            have hdrop := List.forall₂_drop (operandAt F.code.co_code pc) hstk
            rcases hd1 : s₁.drop (operandAt F.code.co_code pc) with _ | ⟨a, t₁⟩ <;>
              rcases hd2 : s₂.drop (operandAt F.code.co_code pc) with _ | ⟨b, t₂⟩ <;>
              rw [hd1, hd2] at hdrop
            · simp only [hd1, hd2]
              exact rfl
            · exact absurd hdrop (by intro hcontra; cases hcontra)
            · exact absurd hdrop (by intro hcontra; cases hcontra)
            · simp only [hd1, hd2]
              cases hdrop with
              | cons hcallee hrest => ?_
              cases hcallee with
              | lit v => exact rfl
              | modul m => exact rfl
              | clsRef cid => exact rfl
              | fn hS' hF' =>
                next fid' F' =>
                simp only [hF']
                obtain ⟨F'', hF'', hGeq⟩ := H.funcs_ok fid' hS'
                rw [hF'] at hF''
                injection hF'' with hFeq
                subst hFeq
                rw [hGeq]
                rcases bindArgs_rel hargs F'.code F'.defaults with
                  ⟨hb1, hb2⟩ | ⟨lc₁, lc₂, hb1, hb2, hbrel⟩
                · simp only [hb1, hb2]
                  exact rfl
                · simp only [hb1, hb2]
                  have hsub := ih fid' F' hS' hF' lc₁ lc₂ [] [] 0 hbrel
                    List.Forall₂.nil
                  rcases hr1 : run w ns f F'.code (.orig G) lc₁ [] 0 with e₁ | v₁ <;>
                    rcases hr2 : run w ns f F'.code .recon lc₂ [] 0 with e₂ | v₂ <;>
                    rw [hr1, hr2] at hsub
                  · simp only [hr1, hr2]
                    exact hsub
                  · exact absurd hsub (by simp [RRel])
                  · exact absurd hsub (by simp [RRel])
                  · simp only [hr1, hr2]
                    exact ih fid F hfid hF _ _ _ _ _ hloc
                      (List.Forall₂.cons hsub hrest)
          · rw [hlen] at h13b
            rw [← hlen] at h13b
            simp only [if_neg h13b, if_neg (hlen ▸ h13b)]
            exact rfl
        · simp only [if_neg h13a]
          exact rfl
      simp only [if_neg h13]
      exact rfl

/-- Top-level consequence of the simulation: calling an original function
and calling its reconstruction on the same plain arguments produce the
same outcome — the same plain result, or the same error. -/
theorem pyCall_sim (w : World) (G : List (String × GValue)) (ns : NS)
    (S : List Nat) (H : SimHyp w G ns S) {fid : Nat} {F : FuncObj}
    (hfid : fid ∈ S) (hF : w.funcs[fid]? = Option.some F)
    (args : List PyVal) (fuel : Nat) :
    pyCall w ns (.funcO fid) args fuel =
      pyCall w ns (.funcR F.code F.fname F.defaults) args fuel := by
  obtain ⟨F', hF', hG⟩ := H.funcs_ok fid hfid
  rw [hF] at hF'
  injection hF' with hFeq
  subst hFeq
  simp only [pyCall, hF, hG]
  rcases bindArgs_rel (@forall₂_lit_self w S args) F.code F.defaults
    with ⟨hb1, _⟩ | ⟨lc₁, lc₂, hb1, hb2, hbrel⟩
  · simp only [hb1]
  · have hlc : lc₁ = lc₂ := by
      rw [hb1] at hb2
      exact Option.some.inj hb2
    subst hlc
    simp only [hb1]
    have hrun := run_sim w G ns S H fuel fid F hfid hF lc₁ lc₁ [] [] 0 hbrel
      List.Forall₂.nil
    rcases hr1 : run w ns fuel F.code (.orig G) lc₁ [] 0 with e₁ | v₁ <;>
      rcases hr2 : run w ns fuel F.code .recon lc₁ [] 0 with e₂ | v₂ <;>
      rw [hr1, hr2] at hrun
    · simp only [RRel] at hrun
      rw [hrun]
    · exact absurd hrun (by simp [RRel])
    · exact absurd hrun (by simp [RRel])
    · simp only [RRel] at hrun
      cases hrun <;> rfl

/-! ### Symbolic evaluation of the walker's classification loop -/

theorem processName_noop (w : World) (smod : String) (F : FuncObj)
    (st : SState) (globs : List (String × EmbVal)) (name : String)
    (h : F.glob.lookup name = Option.none ∨
      ∃ fid, F.glob.lookup name = Option.some (.func fid) ∧
        (name, fid) ∈ st.functions) :
    processName w smod F (st, globs) name = (st, globs) := by
  rcases h with h | ⟨fid, h, hmem⟩
  · simp [processName, h]
  · simp [processName, h, hmem]

theorem foldl_processName_noop (w : World) (smod : String) (F : FuncObj) :
    ∀ (L : List String) (st : SState) (globs : List (String × EmbVal)),
      (∀ n ∈ L, F.glob.lookup n = Option.none ∨
        ∃ fid, F.glob.lookup n = Option.some (.func fid) ∧
          (n, fid) ∈ st.functions) →
      L.foldl (processName w smod F) (st, globs) = (st, globs) := by
  intro L
  induction L with
  | nil => intro st globs _; rfl
  | cons x xs ih =>
    intro st globs h
    rw [List.foldl_cons,
      processName_noop w smod F st globs x (h x (List.mem_cons_self _ _))]
    exact ih st globs (fun n hn => h n (List.mem_cons_of_mem _ hn))

/-- The enqueueing step for a fresh `(name, function)` pair. -/
theorem processName_enqueue (w : World) (smod : String) (F : FuncObj)
    (st : SState) (globs : List (String × EmbVal)) (name : String) (gfid : Nat)
    (h : F.glob.lookup name = Option.some (.func gfid))
    (hnew : (name, gfid) ∉ st.functions) :
    processName w smod F (st, globs) name =
      ({ functions := st.functions ++ [(name, gfid)],
         queue := st.queue ++ [.func name gfid], mod := st.mod }, globs) := by
  simp [processName, h, hnew]

theorem foldl_processName_single (w : World) (smod : String) (F : FuncObj) :
    ∀ (L : List String) (st : SState) (globs : List (String × EmbVal))
      (gname : String) (gfid : Nat),
      F.glob.lookup gname = Option.some (.func gfid) →
      (gname, gfid) ∉ st.functions →
      gname ∈ L →
      (∀ n ∈ L, n = gname ∨ F.glob.lookup n = Option.none ∨
        ∃ fid', F.glob.lookup n = Option.some (.func fid') ∧
          (n, fid') ∈ st.functions) →
      L.foldl (processName w smod F) (st, globs) =
        ({ functions := st.functions ++ [(gname, gfid)],
           queue := st.queue ++ [.func gname gfid], mod := st.mod }, globs) := by
  intro L
  induction L with
  | nil =>
    intro st globs gname gfid _ _ hmem _
    simp at hmem
  | cons x xs ih =>
    intro st globs gname gfid hg hnew hmem hL
    by_cases hx : x = gname
    · subst hx
      rw [List.foldl_cons, processName_enqueue w smod F st globs x gfid hg hnew]
      apply foldl_processName_noop
      intro n hn
      rcases hL n (List.mem_cons_of_mem _ hn) with rfl | h | ⟨fid', h, hmem'⟩
      · exact Or.inr ⟨gfid, hg, by simp⟩
      · exact Or.inl h
      · exact Or.inr ⟨fid', h, by simp [hmem']⟩
    · have hxs : gname ∈ xs := by
        rcases List.mem_cons.mp hmem with heq | hmem'
        · exact absurd heq.symm hx
        · exact hmem'
      have hx' : processName w smod F (st, globs) x = (st, globs) := by
        apply processName_noop
        rcases hL x (List.mem_cons_self _ _) with rfl | h | ⟨fid', h, hmem'⟩
        · exact absurd rfl hx
        · exact Or.inl h
        · exact Or.inr ⟨fid', h, hmem'⟩
      rw [List.foldl_cons, hx']
      exact ih st globs gname gfid hg hnew hxs
        (fun n hn => hL n (List.mem_cons_of_mem _ hn))

theorem foldl_processName_double (w : World) (smod : String) (F : FuncObj) :
    ∀ (L : List String) (st : SState) (globs : List (String × EmbVal))
      (na nb : String) (bfid : Nat),
      F.glob.lookup na = Option.some (.func bfid) →
      F.glob.lookup nb = Option.some (.func bfid) →
      na ≠ nb →
      (na, bfid) ∉ st.functions →
      (nb, bfid) ∉ st.functions →
      na ∈ L → nb ∈ L →
      (∀ n ∈ L, n = na ∨ n = nb ∨ F.glob.lookup n = Option.none ∨
        ∃ fid', F.glob.lookup n = Option.some (.func fid') ∧
          (n, fid') ∈ st.functions) →
      L.foldl (processName w smod F) (st, globs) =
        ({ functions := st.functions ++ [(na, bfid), (nb, bfid)],
           queue := st.queue ++ [.func na bfid, .func nb bfid],
           mod := st.mod }, globs) ∨
      L.foldl (processName w smod F) (st, globs) =
        ({ functions := st.functions ++ [(nb, bfid), (na, bfid)],
           queue := st.queue ++ [.func nb bfid, .func na bfid],
           mod := st.mod }, globs) := by
  intro L
  induction L with
  | nil =>
    intro st globs na nb bfid _ _ _ _ _ hma _
    simp at hma
  | cons x xs ih =>
    intro st globs na nb bfid ha hb hab hnewa hnewb hma hmb hL
    by_cases hxa : x = na
    · subst hxa
      left
      rw [List.foldl_cons, processName_enqueue w smod F st globs x bfid ha hnewa]
      have hmb' : nb ∈ xs := by
        rcases List.mem_cons.mp hmb with heq | h
        · exact absurd heq.symm hab
        · exact h
      have := foldl_processName_single w smod F xs
        { functions := st.functions ++ [(x, bfid)],
          queue := st.queue ++ [.func x bfid], mod := st.mod } globs nb bfid hb
        (by
          simp only [List.mem_append, List.mem_singleton]
          rintro (h | h)
          · exact hnewb h
          · exact hab (Prod.mk.injEq .. ▸ h).1.symm)
        hmb'
        (by
          intro n hn
          rcases hL n (List.mem_cons_of_mem _ hn) with rfl | rfl | h | ⟨f', h, hm⟩
          · exact Or.inr (Or.inr ⟨bfid, ha, by simp⟩)
          · exact Or.inl rfl
          · exact Or.inr (Or.inl h)
          · exact Or.inr (Or.inr ⟨f', h, by simp [hm]⟩))
      rw [this]
      simp
    · by_cases hxb : x = nb
      · subst hxb
        right
        rw [List.foldl_cons, processName_enqueue w smod F st globs x bfid hb hnewb]
        have hma' : na ∈ xs := by
          rcases List.mem_cons.mp hma with heq | h
          · exact absurd heq.symm (fun hh => hab hh.symm)
          · exact h
        have := foldl_processName_single w smod F xs
          { functions := st.functions ++ [(x, bfid)],
            queue := st.queue ++ [.func x bfid], mod := st.mod } globs na bfid ha
          (by
            simp only [List.mem_append, List.mem_singleton]
            rintro (h | h)
            · exact hnewa h
            · exact hab (Prod.mk.injEq .. ▸ h).1)
          hma'
          (by
            intro n hn
            rcases hL n (List.mem_cons_of_mem _ hn) with rfl | rfl | h | ⟨f', h, hm⟩
            · exact Or.inl rfl
            · exact Or.inr (Or.inr ⟨bfid, hb, by simp⟩)
            · exact Or.inr (Or.inl h)
            · exact Or.inr (Or.inr ⟨f', h, by simp [hm]⟩))
        rw [this]
        simp
      · have hx' : processName w smod F (st, globs) x = (st, globs) := by
          apply processName_noop
          rcases hL x (List.mem_cons_self _ _) with rfl | rfl | h | ⟨f', h, hm⟩
          · exact absurd rfl hxa
          · exact absurd rfl hxb
          · exact Or.inl h
          · exact Or.inr ⟨f', h, hm⟩
        rw [List.foldl_cons, hx']
        have hma' : na ∈ xs := by
          rcases List.mem_cons.mp hma with heq | h
          · exact absurd heq.symm hxa
          · exact h
        have hmb' : nb ∈ xs := by
          rcases List.mem_cons.mp hmb with heq | h
          · exact absurd heq.symm hxb
          · exact h
        exact ih st globs na nb bfid ha hb hab hnewa hnewb hma' hmb'
          (fun n hn => hL n (List.mem_cons_of_mem _ hn))

/-- `get_code_args` when every name the code reads is a no-op for the
walker (unbound, or an already-visited function): no new queue items, no
embedded literal globals. -/
theorem get_code_args_noop (w : World) (F : FuncObj) (st : SState)
    (h : ∀ n ∈ find_globals F.code.co_code F.code.co_names,
      F.glob.lookup n = Option.none ∨
      ∃ fid, F.glob.lookup n = Option.some (.func fid) ∧
        (n, fid) ∈ st.functions) :
    get_code_args w F st = ((F.code, F.fname, F.defaults, []), st) := by
  unfold get_code_args
  rw [foldl_processName_noop w st.mod F _ st [] h]

/-- `get_code_args` when exactly one fresh function dependency is
discovered. -/
theorem get_code_args_single (w : World) (F : FuncObj) (st : SState)
    (gname : String) (gfid : Nat)
    (hg : F.glob.lookup gname = Option.some (.func gfid))
    (hnew : (gname, gfid) ∉ st.functions)
    (hmem : gname ∈ find_globals F.code.co_code F.code.co_names)
    (h : ∀ n ∈ find_globals F.code.co_code F.code.co_names,
      n = gname ∨ F.glob.lookup n = Option.none ∨
      ∃ fid', F.glob.lookup n = Option.some (.func fid') ∧
        (n, fid') ∈ st.functions) :
    get_code_args w F st = ((F.code, F.fname, F.defaults, []),
      { functions := st.functions ++ [(gname, gfid)],
        queue := st.queue ++ [.func gname gfid], mod := st.mod }) := by
  unfold get_code_args
  rw [foldl_processName_single w st.mod F _ st [] gname gfid hg hnew hmem h]

/-- `get_code_args` when exactly two fresh alias names, bound to the same
function object, are discovered: both are enqueued (in one of the two
traversal orders). -/
theorem get_code_args_double (w : World) (F : FuncObj) (st : SState)
    (na nb : String) (bfid : Nat)
    (ha : F.glob.lookup na = Option.some (.func bfid))
    (hb : F.glob.lookup nb = Option.some (.func bfid))
    (hab : na ≠ nb)
    (hnewa : (na, bfid) ∉ st.functions)
    (hnewb : (nb, bfid) ∉ st.functions)
    (hma : na ∈ find_globals F.code.co_code F.code.co_names)
    (hmb : nb ∈ find_globals F.code.co_code F.code.co_names)
    (h : ∀ n ∈ find_globals F.code.co_code F.code.co_names,
      n = na ∨ n = nb ∨ F.glob.lookup n = Option.none ∨
      ∃ fid', F.glob.lookup n = Option.some (.func fid') ∧
        (n, fid') ∈ st.functions) :
    get_code_args w F st = ((F.code, F.fname, F.defaults, []),
      { functions := st.functions ++ [(na, bfid), (nb, bfid)],
        queue := st.queue ++ [.func na bfid, .func nb bfid],
        mod := st.mod }) ∨
    get_code_args w F st = ((F.code, F.fname, F.defaults, []),
      { functions := st.functions ++ [(nb, bfid), (na, bfid)],
        queue := st.queue ++ [.func nb bfid, .func na bfid],
        mod := st.mod }) := by
  unfold get_code_args
  rcases foldl_processName_double w st.mod F _ st [] na nb bfid ha hb hab
      hnewa hnewb hma hmb h with hf | hf
  · left
    rw [hf]
  · right
    rw [hf]

/-! ### Namespace lookup lemmas -/

theorem lookup_nsSet_self (k : String) (v : RVal) :
    ∀ ns : NS, (nsSet k v ns).lookup k = Option.some v := by
  intro ns
  induction ns with
  | nil => simp [nsSet, List.lookup]
  | cons kv rest ih =>
    rcases kv with ⟨k', v'⟩
    by_cases h : k' = k
    · subst h
      simp [nsSet, List.lookup]
    · have hb : (k == k') = false := beq_eq_false_iff_ne.mpr (fun hc => h hc.symm)
      simp [nsSet, if_neg h, List.lookup, hb, ih]

theorem lookup_nsSet_other {k' k : String} (h : k' ≠ k) (v : RVal) :
    ∀ ns : NS, (nsSet k' v ns).lookup k = ns.lookup k := by
  intro ns
  induction ns with
  | nil =>
    have hb : (k == k') = false := beq_eq_false_iff_ne.mpr (fun hc => h hc.symm)
    simp [nsSet, List.lookup, hb]
  | cons kv rest ih =>
    rcases kv with ⟨k₀, v₀⟩
    by_cases h0 : k₀ = k'
    · subst h0
      have hb : (k == k₀) = false := beq_eq_false_iff_ne.mpr (fun hc => h hc.symm)
      simp [nsSet, List.lookup, hb]
    · by_cases hk : k₀ = k
      · subst hk
        simp [nsSet, if_neg h0, List.lookup]
      · have hb : (k == k₀) = false := beq_eq_false_iff_ne.mpr (fun hc => hk hc.symm)
        simp [nsSet, if_neg h0, List.lookup, hb, ih]

/-! ### The published function is always first -/

/-- Whenever serialization succeeds, the node list starts with the
published function's own node, carrying its code, `__name__` and
defaults. -/
theorem serializeF_first_node (w : World) (fuel fid : Nat) (F : FuncObj)
    (hF : w.funcs[fid]? = Option.some F) (nodes : List Node)
    (hser : serializeF w fuel fid = Option.some nodes) :
    ∃ globs rest, nodes = Node.func F.fname F.code F.fname F.defaults globs :: rest := by
  simp only [serializeF, hF] at hser
  rcases hobj : serObj w fuel
      { functions := [(F.fname, fid)], queue := [.func F.fname fid],
        mod := F.module } with _ | ⟨nodes', st'⟩
  · rw [hobj] at hser
    simp at hser
  · rw [hobj] at hser
    simp only [Option.some.injEq] at hser
    subst hser
    match fuel with
    | 0 =>
      rw [serObj] at hobj
      simp at hobj
    | f + 1 =>
      rcases hfold : (find_globals F.code.co_code F.code.co_names).foldl
          (processName w F.module F)
          ({ functions := [(F.fname, fid)], queue := [], mod := F.module },
            ([] : List (String × EmbVal))) with ⟨st1, globs⟩
      rw [serObj] at hobj
      simp only [hF, get_code_args, hfold] at hobj
      rcases hrec : serObj w f st1 with _ | ⟨nodes2, st2⟩
      · rw [hrec] at hobj
        simp at hobj
      · rw [hrec] at hobj
        simp only [Option.some.injEq] at hobj
        cases hobj
        exact ⟨globs, nodes2, rfl⟩

/-- The deserializer's result is the value built from the first node. -/
theorem deserializeF_first (nd : Node) (rest : List Node) (ns : NS) :
    (deserializeF (nd :: rest) ns).2 = (deserNode nd ns).2.2 := by
  rcases h : deserNode nd ns with ⟨ns1, name, value⟩
  simp [deserializeF, h]

/-- Draining an empty queue. -/
theorem serObj_nil (w : World) (fuel : Nat) (functions : List (String × Nat))
    (smod : String) :
    serObj w fuel ⟨functions, [], smod⟩ =
      Option.some ([], ⟨functions, [], smod⟩) := by
  rw [serObj]

/-! ## Claim C1 -/

/-- C1: for a function with no external global dependencies, one
serialize/deserialize round trip yields a callable that behaves
identically on all inputs (same plain result or same error, for every
fuel bound); moreover — for every world and every function — a
successful serialization always puts the published function's node first
in the node list, and the deserializer returns exactly the object rebuilt
from that first node. -/
theorem claim_C1 :
    (∀ (w : World) (fuel fid : Nat) (F : FuncObj) (nodes : List Node),
        w.funcs[fid]? = Option.some F →
        serializeF w fuel fid = Option.some nodes →
        (∃ globs rest,
          nodes = Node.func F.fname F.code F.fname F.defaults globs :: rest) ∧
        ∀ ns₀ : NS,
          (deserializeF nodes ns₀).2 = .funcR F.code F.fname F.defaults) ∧
    (∀ (f : FuncObj) (fuel : Nat),
        (∀ n ∈ find_globals f.code.co_code f.code.co_names,
          n = f.fname ∨ f.glob.lookup n = Option.none) →
        (f.fname ∈ find_globals f.code.co_code f.code.co_names →
          f.glob.lookup f.fname = Option.some (.func 0)) →
        ∃ nodes,
          serializeF ⟨[f], []⟩ (fuel + 1) 0 = Option.some nodes ∧
          ∀ (args : List PyVal) (cfuel : Nat),
            pyCall ⟨[f], []⟩ (deserializeF nodes []).1 (.funcO 0) args cfuel =
              pyCall ⟨[f], []⟩ (deserializeF nodes []).1 (deserializeF nodes []).2
                args cfuel) := by
  constructor
  · intro w fuel fid F nodes hF hser
    have hfirst := serializeF_first_node w fuel fid F hF nodes hser
    refine ⟨hfirst, ?_⟩
    obtain ⟨globs, rest, rfl⟩ := hfirst
    intro ns₀
    rw [deserializeF_first]
    simp [deserNode]
  · intro f fuel ha hb
    have hF0 : (⟨[f], []⟩ : World).funcs[0]? = Option.some f := rfl
    have hnoop : ∀ n ∈ find_globals f.code.co_code f.code.co_names,
        f.glob.lookup n = Option.none ∨
        ∃ fid, f.glob.lookup n = Option.some (.func fid) ∧
          (n, fid) ∈ ([(f.fname, 0)] : List (String × Nat)) := by
      intro n hn
      rcases ha n hn with rfl | h
      · exact Or.inr ⟨0, hb hn, by simp⟩
      · exact Or.inl h
    have hgca := get_code_args_noop ⟨[f], []⟩ f ⟨[(f.fname, 0)], [], f.module⟩ hnoop
    have hser : serializeF ⟨[f], []⟩ (fuel + 1) 0 =
        Option.some [.func f.fname f.code f.fname f.defaults []] := by
      simp only [serializeF, hF0]
      rw [serObj]
      simp only [hF0, hgca, serObj_nil]
    refine ⟨_, hser, ?_⟩
    have hns : (deserializeF [.func f.fname f.code f.fname f.defaults []] []).1 =
        [(f.fname, RVal.funcR f.code f.fname f.defaults)] := by
      simp [deserializeF, deserNode, nsUpdateGlobals, nsSet]
    have hres : (deserializeF [.func f.fname f.code f.fname f.defaults []] []).2 =
        RVal.funcR f.code f.fname f.defaults := by
      rw [deserializeF_first]
      simp [deserNode]
    rw [hns, hres]
    have H : SimHyp ⟨[f], []⟩ f.glob
        [(f.fname, RVal.funcR f.code f.fname f.defaults)] [0] := by
      constructor
      · intro fid hfid
        rw [List.mem_singleton] at hfid
        subst hfid
        exact ⟨f, rfl, rfl⟩
      · intro fid F hfid hF n hn
        rw [List.mem_singleton] at hfid
        subst hfid
        rw [hF0] at hF
        injection hF with hFeq
        subst hFeq
        rcases ha n hn with rfl | h
        · rw [hb hn]
          rw [show List.lookup f.fname
              [(f.fname, RVal.funcR f.code f.fname f.defaults)] =
              Option.some (RVal.funcR f.code f.fname f.defaults) by
            simp [List.lookup]]
          exact VRel.fn (by simp) rfl
        · rw [h]
          have hne : n ≠ f.fname := by
            intro hcontra
            subst hcontra
            rw [hb hn] at h
            cases h
          rw [show List.lookup n
              [(f.fname, RVal.funcR f.code f.fname f.defaults)] = Option.none by
            have hbq : (n == f.fname) = false := beq_eq_false_iff_ne.mpr hne
            simp [List.lookup, hbq]]
          trivial
    exact fun args cfuel =>
      pyCall_sim ⟨[f], []⟩ f.glob _ [0] H (by simp) hF0 args cfuel

/-! ## Claim C2 -/

/-- C2: two functions that reference each other through their global
names survive one serialize/deserialize round trip.  The blob holds both
nodes in discovery order; reconstruction binds them in that order into
one shared namespace; a reconstructed function is built without its
dependency existing yet (deserializing `f`'s node alone yields the very
same function value while `g`'s name is still absent — resolution is
late-bound, at call time); and afterwards both reconstructions behave
identically to the originals on all inputs and fuel bounds. -/
theorem claim_C2 (f g : FuncObj) (gn : String) (fuel : Nat)
    (hne : f.fname ≠ gn)
    (hgg : g.glob = f.glob)
    (hfn : f.glob.lookup f.fname = Option.some (.func 0))
    (hgn : f.glob.lookup gn = Option.some (.func 1))
    (hmemg : gn ∈ find_globals f.code.co_code f.code.co_names)
    (hmemf : f.fname ∈ find_globals g.code.co_code g.code.co_names)
    (hreads_f : ∀ n ∈ find_globals f.code.co_code f.code.co_names,
      n = f.fname ∨ n = gn ∨ f.glob.lookup n = Option.none)
    (hreads_g : ∀ n ∈ find_globals g.code.co_code g.code.co_names,
      n = f.fname ∨ n = gn ∨ f.glob.lookup n = Option.none) :
    serializeF ⟨[f, g], []⟩ (fuel + 1 + 1) 0 =
      Option.some [.func f.fname f.code f.fname f.defaults [],
                   .func gn g.code g.fname g.defaults []] ∧
    (deserializeF [.func f.fname f.code f.fname f.defaults [],
                   .func gn g.code g.fname g.defaults []] []).1 =
      [(f.fname, .funcR f.code f.fname f.defaults),
       (gn, .funcR g.code g.fname g.defaults)] ∧
    ((deserializeF [.func f.fname f.code f.fname f.defaults []] []).2 =
       .funcR f.code f.fname f.defaults ∧
     ((deserializeF [.func f.fname f.code f.fname f.defaults []] []).1).lookup gn =
       Option.none) ∧
    (∀ (args : List PyVal) (cfuel : Nat),
      pyCall ⟨[f, g], []⟩
          [(f.fname, .funcR f.code f.fname f.defaults),
           (gn, .funcR g.code g.fname g.defaults)] (.funcO 0) args cfuel =
        pyCall ⟨[f, g], []⟩
          [(f.fname, .funcR f.code f.fname f.defaults),
           (gn, .funcR g.code g.fname g.defaults)]
          (.funcR f.code f.fname f.defaults) args cfuel) ∧
    (∀ (args : List PyVal) (cfuel : Nat),
      pyCall ⟨[f, g], []⟩
          [(f.fname, .funcR f.code f.fname f.defaults),
           (gn, .funcR g.code g.fname g.defaults)] (.funcO 1) args cfuel =
        pyCall ⟨[f, g], []⟩
          [(f.fname, .funcR f.code f.fname f.defaults),
           (gn, .funcR g.code g.fname g.defaults)]
          (.funcR g.code g.fname g.defaults) args cfuel) := by
  have hF0 : (⟨[f, g], []⟩ : World).funcs[0]? = Option.some f := rfl
  have hF1 : (⟨[f, g], []⟩ : World).funcs[1]? = Option.some g := rfl
  -- walking f discovers exactly the fresh dependency (gn, 1)
  have hgca_f := get_code_args_single ⟨[f, g], []⟩ f
    ⟨[(f.fname, 0)], [], f.module⟩ gn 1 hgn
    (by simp)
    hmemg
    (by
      intro n hn
      rcases hreads_f n hn with rfl | rfl | h
      · exact Or.inr (Or.inr ⟨0, hfn, by simp⟩)
      · exact Or.inl rfl
      · exact Or.inr (Or.inl h))
  simp only [List.singleton_append, List.nil_append] at hgca_f
  -- walking g discovers nothing new
  have hgca_g := get_code_args_noop ⟨[f, g], []⟩ g
    ⟨[(f.fname, 0), (gn, 1)], [], f.module⟩
    (by
      intro n hn
      rw [hgg]
      rcases hreads_g n hn with rfl | rfl | h
      · exact Or.inr ⟨0, hfn, by simp⟩
      · exact Or.inr ⟨1, hgn, by simp⟩
      · exact Or.inl h)
  have hstep2 : serObj ⟨[f, g], []⟩ (fuel + 1)
      ⟨[(f.fname, 0), (gn, 1)], [.func gn 1], f.module⟩ =
      Option.some ([.func gn g.code g.fname g.defaults []],
        ⟨[(f.fname, 0), (gn, 1)], [], f.module⟩) := by
    rw [serObj]
    simp only [hF1, hgca_g, serObj_nil]
  have hser : serializeF ⟨[f, g], []⟩ (fuel + 1 + 1) 0 =
      Option.some [.func f.fname f.code f.fname f.defaults [],
                   .func gn g.code g.fname g.defaults []] := by
    simp only [serializeF, hF0]
    rw [serObj]
    simp only [hF0, hgca_f, hstep2]
  have hnsf : (deserializeF [.func f.fname f.code f.fname f.defaults []] []).1 =
      [(f.fname, RVal.funcR f.code f.fname f.defaults)] := by
    simp [deserializeF, deserNode, nsUpdateGlobals, nsSet]
  have hns : (deserializeF [.func f.fname f.code f.fname f.defaults [],
      .func gn g.code g.fname g.defaults []] []).1 =
      [(f.fname, .funcR f.code f.fname f.defaults),
       (gn, .funcR g.code g.fname g.defaults)] := by
    simp [deserializeF, deserNode, nsUpdateGlobals, nsSet, hne]
  have H : SimHyp ⟨[f, g], []⟩ f.glob
      [(f.fname, .funcR f.code f.fname f.defaults),
       (gn, .funcR g.code g.fname g.defaults)] [0, 1] := by
    constructor
    · intro fid hfid
      simp only [List.mem_cons, List.not_mem_nil, or_false] at hfid
      rcases hfid with rfl | rfl
      · exact ⟨f, rfl, rfl⟩
      · exact ⟨g, rfl, hgg⟩
    · intro fid F hfid hF n hn
      have hlookup_fn : List.lookup f.fname
          [(f.fname, RVal.funcR f.code f.fname f.defaults),
           (gn, RVal.funcR g.code g.fname g.defaults)] =
          Option.some (RVal.funcR f.code f.fname f.defaults) := by
        simp [List.lookup]
      have hlookup_gn : List.lookup gn
          [(f.fname, RVal.funcR f.code f.fname f.defaults),
           (gn, RVal.funcR g.code g.fname g.defaults)] =
          Option.some (RVal.funcR g.code g.fname g.defaults) := by
        have hb : (gn == f.fname) = false :=
          beq_eq_false_iff_ne.mpr (fun hc => hne hc.symm)
        simp [List.lookup, hb]
      have hreads : ∀ n ∈ find_globals F.code.co_code F.code.co_names,
          n = f.fname ∨ n = gn ∨ f.glob.lookup n = Option.none := by
        simp only [List.mem_cons, List.not_mem_nil, or_false] at hfid
        rcases hfid with rfl | rfl
        · rw [hF0] at hF
          injection hF with hFeq
          subst hFeq
          exact hreads_f
        · rw [hF1] at hF
          injection hF with hFeq
          subst hFeq
          exact hreads_g
      rcases hreads n hn with rfl | rfl | h
      · rw [hfn, hlookup_fn]
        exact VRel.fn (by simp) hF0
      · rw [hgn, hlookup_gn]
        exact VRel.fn (by simp) hF1
      · rw [h]
        have hn_fn : n ≠ f.fname := by
          intro hc
          subst hc
          rw [hfn] at h
          cases h
        have hn_gn : n ≠ gn := by
          intro hc
          subst hc
          rw [hgn] at h
          cases h
        rw [show List.lookup n
            [(f.fname, RVal.funcR f.code f.fname f.defaults),
             (gn, RVal.funcR g.code g.fname g.defaults)] = Option.none by
          have hb1 : (n == f.fname) = false := beq_eq_false_iff_ne.mpr hn_fn
          have hb2 : (n == gn) = false := beq_eq_false_iff_ne.mpr hn_gn
          simp [List.lookup, hb1, hb2]]
        trivial
  refine ⟨hser, hns, ⟨?_, ?_⟩, ?_, ?_⟩
  · rw [deserializeF_first]
    simp [deserNode]
  · rw [hnsf]
    have hb : (gn == f.fname) = false :=
      beq_eq_false_iff_ne.mpr (fun hc => hne hc.symm)
    simp [List.lookup, hb]
  · exact fun args cfuel =>
      pyCall_sim ⟨[f, g], []⟩ f.glob _ [0, 1] H (by simp) hF0 args cfuel
  · exact fun args cfuel =>
      pyCall_sim ⟨[f, g], []⟩ f.glob _ [0, 1] H (by simp) hF1 args cfuel

/-- Counterexample to C3 as stated: the visited set is keyed by `(name,
identity)` pairs, so an alias name is NOT deduplicated against the
already-queued node — the one function object's body is serialized twice,
once under each name. -/
theorem claim_C3_counterexample :
    serializeF ⟨[c3p, c3b], []⟩ 4 0 =
      Option.some [.func "p" c3p.code "p" [] [],
                   .func "a" c3b.code "b" [] [],
                   .func "c" c3b.code "b" [] []] ∧
    countNodesWithCode [.func "p" c3p.code "p" [] [],
                        .func "a" c3b.code "b" [] [],
                        .func "c" c3b.code "b" [] []]
      c3b.code.co_code = 2 := by
  constructor
  · rfl
  · rfl

/-- C3, amended: when a published function calls one function object
through an alias (`g = f`), serialization records the alias's own name as
its own additional function node — the body is serialized once per
`(name, object)` pair rather than reused — and the rebuilt closure still
resolves calls made through either name correctly: both names are bound
to reconstructions of the one body, and every call through the original
or through the reconstruction produces the same outcome. -/
theorem claim_C3_amended (p b : FuncObj) (na nb : String) (fuel : Nat)
    (hpa : p.fname ≠ na) (hpb : p.fname ≠ nb) (hab : na ≠ nb)
    (hpn : p.glob.lookup p.fname = Option.some (.func 0))
    (hna : p.glob.lookup na = Option.some (.func 1))
    (hnb : p.glob.lookup nb = Option.some (.func 1))
    (hbg : b.glob = p.glob)
    (hmema : na ∈ find_globals p.code.co_code p.code.co_names)
    (hmemb : nb ∈ find_globals p.code.co_code p.code.co_names)
    (hreads_p : ∀ n ∈ find_globals p.code.co_code p.code.co_names,
      n = p.fname ∨ n = na ∨ n = nb ∨ p.glob.lookup n = Option.none)
    (hreads_b : ∀ n ∈ find_globals b.code.co_code b.code.co_names,
      n = p.fname ∨ n = na ∨ n = nb ∨ p.glob.lookup n = Option.none) :
    ∃ nodes,
      serializeF ⟨[p, b], []⟩ (fuel + 1 + 1 + 1) 0 = Option.some nodes ∧
      (nodes = [.func p.fname p.code p.fname p.defaults [],
                .func na b.code b.fname b.defaults [],
                .func nb b.code b.fname b.defaults []] ∨
       nodes = [.func p.fname p.code p.fname p.defaults [],
                .func nb b.code b.fname b.defaults [],
                .func na b.code b.fname b.defaults []]) ∧
      countNodesWithCode nodes b.code.co_code ≥ 2 ∧
      ((deserializeF nodes []).1).lookup na =
        Option.some (.funcR b.code b.fname b.defaults) ∧
      ((deserializeF nodes []).1).lookup nb =
        Option.some (.funcR b.code b.fname b.defaults) ∧
      (∀ (args : List PyVal) (cfuel : Nat),
        pyCall ⟨[p, b], []⟩ (deserializeF nodes []).1 (.funcO 0) args cfuel =
          pyCall ⟨[p, b], []⟩ (deserializeF nodes []).1
            (.funcR p.code p.fname p.defaults) args cfuel) ∧
      (∀ (args : List PyVal) (cfuel : Nat),
        pyCall ⟨[p, b], []⟩ (deserializeF nodes []).1 (.funcO 1) args cfuel =
          pyCall ⟨[p, b], []⟩ (deserializeF nodes []).1
            (.funcR b.code b.fname b.defaults) args cfuel) := by
  have hF0 : (⟨[p, b], []⟩ : World).funcs[0]? = Option.some p := rfl
  have hF1 : (⟨[p, b], []⟩ : World).funcs[1]? = Option.some b := rfl
  -- walking p discovers the two fresh alias names (in some order)
  have hL : ∀ n ∈ find_globals p.code.co_code p.code.co_names,
      n = na ∨ n = nb ∨ p.glob.lookup n = Option.none ∨
      ∃ fid', p.glob.lookup n = Option.some (.func fid') ∧
        (n, fid') ∈ ([(p.fname, 0)] : List (String × Nat)) := by
    intro n hn
    rcases hreads_p n hn with rfl | rfl | rfl | h
    · exact Or.inr (Or.inr (Or.inr ⟨0, hpn, by simp⟩))
    · exact Or.inl rfl
    · exact Or.inr (Or.inl rfl)
    · exact Or.inr (Or.inr (Or.inl h))
  have hgca_p := get_code_args_double ⟨[p, b], []⟩ p
    ⟨[(p.fname, 0)], [], p.module⟩ na nb 1 hna hnb hab
    (by simp) (by simp) hmema hmemb hL
  simp only [List.singleton_append, List.nil_append] at hgca_p
  -- draining the two queued alias items, for either discovery order
  have hdrain : ∀ x y : String,
      (x = na ∧ y = nb) ∨ (x = nb ∧ y = na) →
      serObj ⟨[p, b], []⟩ (fuel + 1 + 1)
          ⟨[(p.fname, 0), (x, 1), (y, 1)], [.func x 1, .func y 1], p.module⟩ =
        Option.some
          ([.func x b.code b.fname b.defaults [],
            .func y b.code b.fname b.defaults []],
           ⟨[(p.fname, 0), (x, 1), (y, 1)], [], p.module⟩) := by
    intro x y hcov
    have hmem_na : ((na, 1) : String × Nat) ∈
        [(p.fname, 0), (x, 1), (y, 1)] := by
      rcases hcov with ⟨rfl, rfl⟩ | ⟨rfl, rfl⟩ <;> simp
    have hmem_nb : ((nb, 1) : String × Nat) ∈
        [(p.fname, 0), (x, 1), (y, 1)] := by
      rcases hcov with ⟨rfl, rfl⟩ | ⟨rfl, rfl⟩ <;> simp
    have hnoop : ∀ n ∈ find_globals b.code.co_code b.code.co_names,
        b.glob.lookup n = Option.none ∨
        ∃ fid, b.glob.lookup n = Option.some (.func fid) ∧
          (n, fid) ∈ ([(p.fname, 0), (x, 1), (y, 1)] : List (String × Nat)) := by
      intro n hn
      rw [hbg]
      rcases hreads_b n hn with rfl | rfl | rfl | h
      · exact Or.inr ⟨0, hpn, by simp⟩
      · exact Or.inr ⟨1, hna, hmem_na⟩
      · exact Or.inr ⟨1, hnb, hmem_nb⟩
      · exact Or.inl h
    have hgca1 := get_code_args_noop ⟨[p, b], []⟩ b
      ⟨[(p.fname, 0), (x, 1), (y, 1)], [.func y 1], p.module⟩ hnoop
    have hgca2 := get_code_args_noop ⟨[p, b], []⟩ b
      ⟨[(p.fname, 0), (x, 1), (y, 1)], [], p.module⟩ hnoop
    have hstep3 : serObj ⟨[p, b], []⟩ (fuel + 1)
        ⟨[(p.fname, 0), (x, 1), (y, 1)], [.func y 1], p.module⟩ =
        Option.some ([.func y b.code b.fname b.defaults []],
          ⟨[(p.fname, 0), (x, 1), (y, 1)], [], p.module⟩) := by
      rw [serObj]
      simp only [hF1, hgca2, serObj_nil]
    rw [serObj]
    simp only [hF1, hgca1, hstep3]
  rcases hgca_p with hgca | hgca
  · -- discovery order (na, nb)
    have hser : serializeF ⟨[p, b], []⟩ (fuel + 1 + 1 + 1) 0 =
        Option.some [.func p.fname p.code p.fname p.defaults [],
                     .func na b.code b.fname b.defaults [],
                     .func nb b.code b.fname b.defaults []] := by
      simp only [serializeF, hF0]
      rw [serObj]
      simp only [hF0, hgca, hdrain na nb (Or.inl ⟨rfl, rfl⟩)]
    have hns : (deserializeF
        [.func p.fname p.code p.fname p.defaults [],
         .func na b.code b.fname b.defaults [],
         .func nb b.code b.fname b.defaults []] []).1 =
        [(p.fname, .funcR p.code p.fname p.defaults),
         (na, .funcR b.code b.fname b.defaults),
         (nb, .funcR b.code b.fname b.defaults)] := by
      simp [deserializeF, deserNode, nsUpdateGlobals, nsSet, hpa, hpb, hab]
    have hlook_na : List.lookup na
        [(p.fname, RVal.funcR p.code p.fname p.defaults),
         (na, RVal.funcR b.code b.fname b.defaults),
         (nb, RVal.funcR b.code b.fname b.defaults)] =
        Option.some (RVal.funcR b.code b.fname b.defaults) := by
      have hb1 : (na == p.fname) = false :=
        beq_eq_false_iff_ne.mpr (fun hc => hpa hc.symm)
      simp [List.lookup, hb1]
    have hlook_nb : List.lookup nb
        [(p.fname, RVal.funcR p.code p.fname p.defaults),
         (na, RVal.funcR b.code b.fname b.defaults),
         (nb, RVal.funcR b.code b.fname b.defaults)] =
        Option.some (RVal.funcR b.code b.fname b.defaults) := by
      have hb1 : (nb == p.fname) = false :=
        beq_eq_false_iff_ne.mpr (fun hc => hpb hc.symm)
      have hb2 : (nb == na) = false :=
        beq_eq_false_iff_ne.mpr (fun hc => hab hc.symm)
      simp [List.lookup, hb1, hb2]
    have H : SimHyp ⟨[p, b], []⟩ p.glob
        [(p.fname, .funcR p.code p.fname p.defaults),
         (na, .funcR b.code b.fname b.defaults),
         (nb, .funcR b.code b.fname b.defaults)] [0, 1] := by
      constructor
      · intro fid hfid
        simp only [List.mem_cons, List.not_mem_nil, or_false] at hfid
        rcases hfid with rfl | rfl
        · exact ⟨p, rfl, rfl⟩
        · exact ⟨b, rfl, hbg⟩
      · intro fid F hfid hF n hn
        have hlook_pn : List.lookup p.fname
            [(p.fname, RVal.funcR p.code p.fname p.defaults),
             (na, RVal.funcR b.code b.fname b.defaults),
             (nb, RVal.funcR b.code b.fname b.defaults)] =
            Option.some (RVal.funcR p.code p.fname p.defaults) := by
          simp [List.lookup]
        have hreads : ∀ n ∈ find_globals F.code.co_code F.code.co_names,
            n = p.fname ∨ n = na ∨ n = nb ∨
              p.glob.lookup n = Option.none := by
          simp only [List.mem_cons, List.not_mem_nil, or_false] at hfid
          rcases hfid with rfl | rfl
          · rw [hF0] at hF
            injection hF with hFeq
            subst hFeq
            exact hreads_p
          · rw [hF1] at hF
            injection hF with hFeq
            subst hFeq
            exact hreads_b
        rcases hreads n hn with rfl | rfl | rfl | h
        · rw [hpn, hlook_pn]
          exact VRel.fn (by simp) hF0
        · rw [hna, hlook_na]
          exact VRel.fn (by simp) hF1
        · rw [hnb, hlook_nb]
          exact VRel.fn (by simp) hF1
        · rw [h]
          have h1 : n ≠ p.fname := by
            intro hc
            rw [hc, hpn] at h
            cases h
          have h2 : n ≠ na := by
            intro hc
            rw [hc, hna] at h
            cases h
          have h3 : n ≠ nb := by
            intro hc
            rw [hc, hnb] at h
            cases h
          rw [show List.lookup n
              [(p.fname, RVal.funcR p.code p.fname p.defaults),
               (na, RVal.funcR b.code b.fname b.defaults),
               (nb, RVal.funcR b.code b.fname b.defaults)] = Option.none by
            have hb1 := beq_eq_false_iff_ne.mpr h1
            have hb2 := beq_eq_false_iff_ne.mpr h2
            have hb3 := beq_eq_false_iff_ne.mpr h3
            simp [List.lookup, hb1, hb2, hb3]]
          trivial
    refine ⟨_, hser, Or.inl rfl, ?_, ?_, ?_, ?_, ?_⟩
    · cases hc : p.code.co_code == b.code.co_code <;>
        simp [countNodesWithCode, List.filter_cons, hc]
    · rw [hns]
      exact hlook_na
    · rw [hns]
      exact hlook_nb
    · intro args cfuel
      rw [hns]
      exact pyCall_sim ⟨[p, b], []⟩ p.glob _ [0, 1] H (by simp) hF0 args cfuel
    · intro args cfuel
      rw [hns]
      exact pyCall_sim ⟨[p, b], []⟩ p.glob _ [0, 1] H (by simp) hF1 args cfuel
  · -- discovery order, second case (nb, na)
    have hser : serializeF ⟨[p, b], []⟩ (fuel + 1 + 1 + 1) 0 =
        Option.some [.func p.fname p.code p.fname p.defaults [],
                     .func nb b.code b.fname b.defaults [],
                     .func na b.code b.fname b.defaults []] := by
      simp only [serializeF, hF0]
      rw [serObj]
      simp only [hF0, hgca, hdrain nb na (Or.inr ⟨rfl, rfl⟩)]
    have hns : (deserializeF
        [.func p.fname p.code p.fname p.defaults [],
         .func nb b.code b.fname b.defaults [],
         .func na b.code b.fname b.defaults []] []).1 =
        [(p.fname, .funcR p.code p.fname p.defaults),
         (nb, .funcR b.code b.fname b.defaults),
         (na, .funcR b.code b.fname b.defaults)] := by
      have hab' : nb ≠ na := fun hc => hab hc.symm
      simp [deserializeF, deserNode, nsUpdateGlobals, nsSet, hpa, hpb, hab']
    have hlook_na : List.lookup na
        [(p.fname, RVal.funcR p.code p.fname p.defaults),
         (nb, RVal.funcR b.code b.fname b.defaults),
         (na, RVal.funcR b.code b.fname b.defaults)] =
        Option.some (RVal.funcR b.code b.fname b.defaults) := by
      have hb1 : (na == p.fname) = false :=
        beq_eq_false_iff_ne.mpr (fun hc => hpa hc.symm)
      have hb2 : (na == nb) = false := beq_eq_false_iff_ne.mpr hab
      simp [List.lookup, hb1, hb2]
    have hlook_nb : List.lookup nb
        [(p.fname, RVal.funcR p.code p.fname p.defaults),
         (nb, RVal.funcR b.code b.fname b.defaults),
         (na, RVal.funcR b.code b.fname b.defaults)] =
        Option.some (RVal.funcR b.code b.fname b.defaults) := by
      have hb1 : (nb == p.fname) = false :=
        beq_eq_false_iff_ne.mpr (fun hc => hpb hc.symm)
      simp [List.lookup, hb1]
    have H : SimHyp ⟨[p, b], []⟩ p.glob
        [(p.fname, .funcR p.code p.fname p.defaults),
         (nb, .funcR b.code b.fname b.defaults),
         (na, .funcR b.code b.fname b.defaults)] [0, 1] := by
      constructor
      · intro fid hfid
        simp only [List.mem_cons, List.not_mem_nil, or_false] at hfid
        rcases hfid with rfl | rfl
        · exact ⟨p, rfl, rfl⟩
        · exact ⟨b, rfl, hbg⟩
      · intro fid F hfid hF n hn
        have hlook_pn : List.lookup p.fname
            [(p.fname, RVal.funcR p.code p.fname p.defaults),
             (nb, RVal.funcR b.code b.fname b.defaults),
             (na, RVal.funcR b.code b.fname b.defaults)] =
            Option.some (RVal.funcR p.code p.fname p.defaults) := by
          simp [List.lookup]
        have hreads : ∀ n ∈ find_globals F.code.co_code F.code.co_names,
            n = p.fname ∨ n = na ∨ n = nb ∨
              p.glob.lookup n = Option.none := by
          simp only [List.mem_cons, List.not_mem_nil, or_false] at hfid
          rcases hfid with rfl | rfl
          · rw [hF0] at hF
            injection hF with hFeq
            subst hFeq
            exact hreads_p
          · rw [hF1] at hF
            injection hF with hFeq
            subst hFeq
            exact hreads_b
        rcases hreads n hn with rfl | rfl | rfl | h
        · rw [hpn, hlook_pn]
          exact VRel.fn (by simp) hF0
        · rw [hna, hlook_na]
          exact VRel.fn (by simp) hF1
        · rw [hnb, hlook_nb]
          exact VRel.fn (by simp) hF1
        · rw [h]
          have h1 : n ≠ p.fname := by
            intro hc
            rw [hc, hpn] at h
            cases h
          have h2 : n ≠ na := by
            intro hc
            rw [hc, hna] at h
            cases h
          have h3 : n ≠ nb := by
            intro hc
            rw [hc, hnb] at h
            cases h
          rw [show List.lookup n
              [(p.fname, RVal.funcR p.code p.fname p.defaults),
               (nb, RVal.funcR b.code b.fname b.defaults),
               (na, RVal.funcR b.code b.fname b.defaults)] = Option.none by
            have hb1 := beq_eq_false_iff_ne.mpr h1
            have hb2 := beq_eq_false_iff_ne.mpr h2
            have hb3 := beq_eq_false_iff_ne.mpr h3
            simp [List.lookup, hb1, hb2, hb3]]
          trivial
    refine ⟨_, hser, Or.inr rfl, ?_, ?_, ?_, ?_, ?_⟩
    · cases hc : p.code.co_code == b.code.co_code <;>
        simp [countNodesWithCode, List.filter_cons, hc]
    · rw [hns]
      exact hlook_na
    · rw [hns]
      exact hlook_nb
    · intro args cfuel
      rw [hns]
      exact pyCall_sim ⟨[p, b], []⟩ p.glob _ [0, 1] H (by simp) hF0 args cfuel
    · intro args cfuel
      rw [hns]
      exact pyCall_sim ⟨[p, b], []⟩ p.glob _ [0, 1] H (by simp) hF1 args cfuel

theorem claim_C1_witness :
    ((∀ n ∈ find_globals c1f.code.co_code c1f.code.co_names,
        n = c1f.fname ∨ c1f.glob.lookup n = Option.none) ∧
     (c1f.fname ∈ find_globals c1f.code.co_code c1f.code.co_names →
        c1f.glob.lookup c1f.fname = Option.some (.func 0))) ∧
    ∃ nodes,
      serializeF ⟨[c1f], []⟩ (0 + 1) 0 = Option.some nodes ∧
      ∀ (args : List PyVal) (cfuel : Nat),
        pyCall ⟨[c1f], []⟩ (deserializeF nodes []).1 (.funcO 0) args cfuel =
          pyCall ⟨[c1f], []⟩ (deserializeF nodes []).1 (deserializeF nodes []).2
            args cfuel :=
  ⟨⟨by decide, fun _ => rfl⟩, claim_C1.2 c1f 0 (by decide) (fun _ => rfl)⟩

theorem claim_C2_witness :
    (c2f.fname ≠ "g" ∧ c2g.glob = c2f.glob ∧
     c2f.glob.lookup c2f.fname = Option.some (.func 0) ∧
     c2f.glob.lookup "g" = Option.some (.func 1) ∧
     "g" ∈ find_globals c2f.code.co_code c2f.code.co_names ∧
     c2f.fname ∈ find_globals c2g.code.co_code c2g.code.co_names ∧
     (∀ n ∈ find_globals c2f.code.co_code c2f.code.co_names,
       n = c2f.fname ∨ n = "g" ∨ c2f.glob.lookup n = Option.none) ∧
     (∀ n ∈ find_globals c2g.code.co_code c2g.code.co_names,
       n = c2f.fname ∨ n = "g" ∨ c2f.glob.lookup n = Option.none)) ∧
    (serializeF ⟨[c2f, c2g], []⟩ (0 + 1 + 1) 0 =
      Option.some [.func c2f.fname c2f.code c2f.fname c2f.defaults [],
                   .func "g" c2g.code c2g.fname c2g.defaults []] ∧
    (deserializeF [.func c2f.fname c2f.code c2f.fname c2f.defaults [],
                   .func "g" c2g.code c2g.fname c2g.defaults []] []).1 =
      [(c2f.fname, .funcR c2f.code c2f.fname c2f.defaults),
       ("g", .funcR c2g.code c2g.fname c2g.defaults)] ∧
    ((deserializeF [.func c2f.fname c2f.code c2f.fname c2f.defaults []] []).2 =
       .funcR c2f.code c2f.fname c2f.defaults ∧
     ((deserializeF [.func c2f.fname c2f.code c2f.fname c2f.defaults []]
        []).1).lookup "g" = Option.none) ∧
    (∀ (args : List PyVal) (cfuel : Nat),
      pyCall ⟨[c2f, c2g], []⟩
          [(c2f.fname, .funcR c2f.code c2f.fname c2f.defaults),
           ("g", .funcR c2g.code c2g.fname c2g.defaults)] (.funcO 0) args cfuel =
        pyCall ⟨[c2f, c2g], []⟩
          [(c2f.fname, .funcR c2f.code c2f.fname c2f.defaults),
           ("g", .funcR c2g.code c2g.fname c2g.defaults)]
          (.funcR c2f.code c2f.fname c2f.defaults) args cfuel) ∧
    (∀ (args : List PyVal) (cfuel : Nat),
      pyCall ⟨[c2f, c2g], []⟩
          [(c2f.fname, .funcR c2f.code c2f.fname c2f.defaults),
           ("g", .funcR c2g.code c2g.fname c2g.defaults)] (.funcO 1) args cfuel =
        pyCall ⟨[c2f, c2g], []⟩
          [(c2f.fname, .funcR c2f.code c2f.fname c2f.defaults),
           ("g", .funcR c2g.code c2g.fname c2g.defaults)]
          (.funcR c2g.code c2g.fname c2g.defaults) args cfuel)) :=
  ⟨⟨by decide, rfl, rfl, rfl, by decide, by decide, by decide, by decide⟩,
   claim_C2 c2f c2g "g" 0 (by decide) rfl rfl rfl (by decide) (by decide)
     (by decide) (by decide)⟩

theorem claim_C3_amended_witness :
    (c3p.fname ≠ "a" ∧ c3p.fname ≠ "c" ∧ ("a" : String) ≠ "c" ∧
     c3p.glob.lookup c3p.fname = Option.some (.func 0) ∧
     c3p.glob.lookup "a" = Option.some (.func 1) ∧
     c3p.glob.lookup "c" = Option.some (.func 1) ∧
     c3b.glob = c3p.glob ∧
     "a" ∈ find_globals c3p.code.co_code c3p.code.co_names ∧
     "c" ∈ find_globals c3p.code.co_code c3p.code.co_names ∧
     (∀ n ∈ find_globals c3p.code.co_code c3p.code.co_names,
       n = c3p.fname ∨ n = "a" ∨ n = "c" ∨
         c3p.glob.lookup n = Option.none) ∧
     (∀ n ∈ find_globals c3b.code.co_code c3b.code.co_names,
       n = c3p.fname ∨ n = "a" ∨ n = "c" ∨
         c3p.glob.lookup n = Option.none)) ∧
    ∃ nodes,
      serializeF ⟨[c3p, c3b], []⟩ (0 + 1 + 1 + 1) 0 = Option.some nodes ∧
      (nodes = [.func c3p.fname c3p.code c3p.fname c3p.defaults [],
                .func "a" c3b.code c3b.fname c3b.defaults [],
                .func "c" c3b.code c3b.fname c3b.defaults []] ∨
       nodes = [.func c3p.fname c3p.code c3p.fname c3p.defaults [],
                .func "c" c3b.code c3b.fname c3b.defaults [],
                .func "a" c3b.code c3b.fname c3b.defaults []]) ∧
      countNodesWithCode nodes c3b.code.co_code ≥ 2 ∧
      ((deserializeF nodes []).1).lookup "a" =
        Option.some (.funcR c3b.code c3b.fname c3b.defaults) ∧
      ((deserializeF nodes []).1).lookup "c" =
        Option.some (.funcR c3b.code c3b.fname c3b.defaults) ∧
      (∀ (args : List PyVal) (cfuel : Nat),
        pyCall ⟨[c3p, c3b], []⟩ (deserializeF nodes []).1 (.funcO 0) args cfuel =
          pyCall ⟨[c3p, c3b], []⟩ (deserializeF nodes []).1
            (.funcR c3p.code c3p.fname c3p.defaults) args cfuel) ∧
      (∀ (args : List PyVal) (cfuel : Nat),
        pyCall ⟨[c3p, c3b], []⟩ (deserializeF nodes []).1 (.funcO 1) args cfuel =
          pyCall ⟨[c3p, c3b], []⟩ (deserializeF nodes []).1
            (.funcR c3b.code c3b.fname c3b.defaults) args cfuel) :=
  ⟨⟨by decide, by decide, by decide, rfl, rfl, rfl, rfl, by decide, by decide,
    by decide, by decide⟩,
   claim_C3_amended c3p c3b "a" "c" 0 (by decide) (by decide) (by decide)
     rfl rfl rfl rfl (by decide) (by decide) (by decide) (by decide)⟩

/-! ## Claim C4 -/

/-- Counterexample to C4 as stated: not every supported scalar kind
round-trips.  The registered float codec serializes with Python 2.7
`str`, which keeps only 12 significant decimal digits: for the double
`1 + 2^-40` it produces `'1.0'`, and `float('1.0')` is exactly `1` —
a different value.  Every value involved is exactly representable
(`1 + 2^-40` has a 41-bit significand and `1.0` is exact), so the lost
information is exactly the `str` truncation. -/
theorem claim_C4_counterexample :
    serialize_float ⟨2 ^ 40 + 1, 40⟩ = Doc.scalar "float" "1.0" ∧
    deserialize_float "1.0" = Option.some ⟨10, 1⟩ ∧
    floatValEq ⟨2 ^ 40 + 1, 40⟩ ⟨10, 1⟩ = false ∧
    floatValEq ⟨1, 0⟩ ⟨10, 1⟩ = true :=
  ⟨rfl, rfl, by decide, by decide⟩

/-- C4, amended: `_decode(_encode(v)) == v` holds for every value of the
exactly-serialized scalar kinds (bool, int, unicode, null), with the
concrete documents `_encode(42) = {"type":"int","value":"42"}` and
`_encode(True) = {"type":"bool","value":"true"}`, and container
encodings round-trip preserving order and contents (`[1,2,3]`, `{2:3}`);
the registered float codec, by contrast, serializes through 12
significant decimal digits, so a float round-trips when 12 digits
determine its value (concretely `1.5`) but NOT in general: there is a
float whose round trip returns a different value. -/
theorem claim_C4_amended :
    (∀ b : Bool,
      pyEncode [.bool b] 0 =
        Except.ok (.scalar "bool" (if b then "true" else "false")) ∧
      pyDecode (.scalar "bool" (if b then "true" else "false")) =
        Except.ok (.bool b)) ∧
    (∀ i : Int,
      pyEncode [.int i] 0 = Except.ok (.scalar "int" (pyIntStr i)) ∧
      pyDecode (.scalar "int" (pyIntStr i)) = Except.ok (.int i)) ∧
    (∀ s : String,
      pyEncode [.str s] 0 = Except.ok (.scalar "unicode" s) ∧
      pyDecode (.scalar "unicode" s) = Except.ok (.str s)) ∧
    (pyEncode [.none] 0 = Except.ok (.scalar "null" "null") ∧
     pyDecode (.scalar "null" "null") = Except.ok PyVal.none) ∧
    pyEncode [.int 42] 0 = Except.ok (.scalar "int" "42") ∧
    pyEncode [.bool true] 0 = Except.ok (.scalar "bool" "true") ∧
    (pyEncode [.int 1, .int 2, .int 3, .list [0, 1, 2]] 3 =
      Except.ok (.coll "list"
        [.scalar "int" "1", .scalar "int" "2", .scalar "int" "3"]) ∧
     pyDecode (.coll "list"
        [.scalar "int" "1", .scalar "int" "2", .scalar "int" "3"]) =
      Except.ok (.list [.int 1, .int 2, .int 3])) ∧
    (pyEncode [.int 2, .int 3, .dict [(0, 1)]] 2 =
      Except.ok (.pairs "dict" [(.scalar "int" "2", .scalar "int" "3")]) ∧
     pyDecode (.pairs "dict" [(.scalar "int" "2", .scalar "int" "3")]) =
      Except.ok (.dict [(.int 2, .int 3)])) ∧
    (pyFloatStr ⟨3, 1⟩ = "1.5" ∧
     pyParseFloat "1.5" = Option.some ⟨15, 1⟩ ∧
     floatValEq ⟨3, 1⟩ ⟨15, 1⟩ = true) ∧
    ∃ (f : PyFloat) (d : DecVal),
      pyParseFloat (pyFloatStr f) = Option.some d ∧
      floatValEq f d = false := by
  refine ⟨?_, ?_, ?_, ⟨rfl, rfl⟩, rfl, rfl, ⟨rfl, rfl⟩, ⟨rfl, rfl⟩,
    ⟨rfl, rfl, by decide⟩, ⟨2 ^ 40 + 1, 40⟩, ⟨10, 1⟩, by rfl, by decide⟩
  · intro b
    cases b <;> exact ⟨rfl, rfl⟩
  · intro i
    refine ⟨rfl, ?_⟩
    have hstep : pyDecode (.scalar "int" (pyIntStr i)) =
        match pyParseInt (pyIntStr i) with
        | Option.some n => Except.ok (.int n)
        | Option.none => Except.error .badPayload := rfl
    rw [hstep, pyParseInt_pyIntStr]
  · intro s
    refine ⟨rfl, ?_⟩
    exact rfl

/-! ## Claim C5 -/

/-- C5: encoding any self-reaching container on a well-formed heap
reports the circular-reference error (and the model's fuel bound — the
stand-in for non-termination — is never the cause of any failure); within
one top-level call the memo only grows, records every address it
finishes, and hitting a memoised container again fails as circular rather
than encoding it twice; the memo starts fresh at each top-level call, so
a container already encoded by one completed call encodes successfully
again in a second call, while re-encoding it under the first call's final
memo would report circular. -/
theorem claim_C5 :
    (∀ (h : Heap) (a : Nat), a < h.length → Closed h → NoOpaque h →
      Reaches h a a → pyEncode h a = Except.error .circular) ∧
    (∀ (h : Heap) (fuel : Nat) (m : List Nat) (a : Nat) (d : Doc)
        (m' : List Nat), encodeA h fuel m a = Except.ok (d, m') →
      m ⊆ m' ∧ a ∈ m') ∧
    (∀ (h : Heap) (fuel : Nat) (m : List Nat) (a : Nat) (o : PyObj),
      h[a]? = Option.some o → o.isContainer = true → a ∈ m →
      encodeA h (fuel + 1) m a = Except.error .circular) ∧
    (∀ (h : Heap) (a : Nat), pyEncode h a ≠ Except.error .fuelOut) ∧
    (pyEncode [.int 1, .list [0]] 1 =
       Except.ok (.coll "list" [.scalar "int" "1"]) ∧
     encodeA [.int 1, .list [0]] 3 [] 1 =
       Except.ok (.coll "list" [.scalar "int" "1"], [0, 1]) ∧
     ∀ fuel : Nat,
       encodeA [.int 1, .list [0]] (fuel + 1) [0, 1] 1 =
         Except.error .circular) := by
  refine ⟨pyEncode_cycle_circular, encodeA_mono, ?_, ?_, rfl, rfl, ?_⟩
  · intro h fuel m a o ha hc hm
    exact encodeA_mem_circular h fuel ha hc hm
  · intro h a hcontra
    have hne := encodeA_no_fuelOut h (h.length + 1) [] a
      (by have := cmem_le_length h []; omega)
    rcases hres : encodeA h (h.length + 1) [] a with e | ⟨d, m⟩
    · have hpe : pyEncode h a = Except.error e := by
        simp [pyEncode, hres]
      rw [hpe] at hcontra
      injection hcontra with he
      exact hne (he ▸ hres)
    · have hpe : pyEncode h a = Except.ok d := by
        simp [pyEncode, hres]
      rw [hpe] at hcontra
      exact Except.noConfusion hcontra
  · intro fuel
    exact encodeA_mem_circular [.int 1, .list [0]] fuel rfl rfl (by decide)

theorem claim_C5_witness :
    (0 < ([.list [0]] : Heap).length ∧ Closed [.list [0]] ∧
     NoOpaque [.list [0]] ∧ Reaches [.list [0]] 0 0) ∧
    pyEncode [.list [0]] 0 = Except.error .circular := by
  have hcl : Closed [.list [0]] := by
    intro a o hao b hb
    rcases a with _ | a
    · injection hao with ho
      subst ho
      simp [PyObj.elems] at hb
      subst hb
      decide
    · simp at hao
  have hno : NoOpaque [.list [0]] := by
    intro o ho t
    rcases List.mem_singleton.mp ho with rfl
    simp
  have hcyc : Reaches [.list [0]] 0 0 :=
    Relation.TransGen.single ⟨.list [0], rfl, by decide⟩
  exact ⟨⟨by decide, hcl, hno, hcyc⟩,
    claim_C5.1 [.list [0]] 0 (by decide) hcl hno hcyc⟩

/-! ## Claim C6 -/

set_option maxHeartbeats 1600000 in
/-- Any document whose tag is outside the modelled registry subset falls
through every registered handler to the catch-all error arm. -/
theorem decodeInner_unknown (t : String) (ht : t ∉ modelledTags) :
    (∀ v, decodeInner (.scalar t v) = Except.error (.unsupported t)) ∧
    (∀ ds, decodeInner (.coll t ds) = Except.error (.unsupported t)) ∧
    (∀ ps, decodeInner (.pairs t ps) = Except.error (.unsupported t)) := by
  simp only [modelledTags, List.mem_cons, List.not_mem_nil, or_false,
    not_or] at ht
  obtain ⟨h1, h2, h3, h4, h5, h6, h7⟩ := ht
  refine ⟨fun v => ?_, fun ds => ?_, fun ps => ?_⟩ <;>
  · rw [decodeInner.eq_def]
    split
    any_goals rfl
    all_goals simp_all

/-- C6: encoding a value whose runtime type has no registered serializer
always reports the unsupported-type error, and decoding a document whose
tag has no registered deserializer always reports the unsupported-type
error — never a silent default — with the concrete case
`{"type":"bogus","value":"x"}`. -/
theorem claim_C6 :
    (∀ (h : Heap) (a : Nat) (ty : String),
      h[a]? = Option.some (.opaque_ ty) →
      pyEncode h a = Except.error (.unsupported ty)) ∧
    (∀ d : Doc, d.tag ∉ sourceRegisteredTags →
      decodeInner d = Except.error (.unsupported d.tag)) ∧
    decodeInner (.scalar "bogus" "x") =
      Except.error (DecErr.unsupported "bogus") := by
  refine ⟨?_, ?_, ?_⟩
  · intro h a ty ha
    have hcond : ¬(a ∈ ([] : List Nat) ∧ (PyObj.opaque_ ty).isContainer) := by
      rintro ⟨hmem, _⟩
      exact List.not_mem_nil a hmem
    have henc : encodeA h (h.length + 1) [] a =
        Except.error (.unsupported ty) := by
      simp only [encodeA, ha, if_neg hcond]
    simp [pyEncode, henc]
  · intro d hd
    have hsub : ∀ x ∈ modelledTags, x ∈ sourceRegisteredTags := by decide
    rcases d with ⟨t, v⟩ | ⟨t, ds⟩ | ⟨t, ps⟩
    · exact (decodeInner_unknown t (fun hm => hd (hsub t hm))).1 v
    · exact (decodeInner_unknown t (fun hm => hd (hsub t hm))).2.1 ds
    · exact (decodeInner_unknown t (fun hm => hd (hsub t hm))).2.2 ps
  · have hb : ("bogus" : String) ∉ modelledTags := by decide
    exact (decodeInner_unknown "bogus" hb).1 "x"

theorem claim_C6_witness :
    (([PyObj.opaque_ "file"] : Heap)[0]? =
       Option.some (PyObj.opaque_ "file") ∧
     Doc.tag (.scalar "bogus" "x") ∉ sourceRegisteredTags) ∧
    (pyEncode [PyObj.opaque_ "file"] 0 =
       Except.error (.unsupported "file") ∧
     decodeInner (.scalar "bogus" "x") =
       Except.error (.unsupported (Doc.tag (.scalar "bogus" "x")))) :=
  ⟨⟨rfl, by decide⟩,
   claim_C6.1 [PyObj.opaque_ "file"] 0 "file" rfl,
   claim_C6.2.1 (.scalar "bogus" "x") (by decide)⟩

/-! ## Claim C7 -/

/-- C7: `find_globals` returns exactly the names read by `LOAD_GLOBAL`
operations of the instruction stream decoded sequentially as
(operation, operand) pairs — a name is returned iff some instruction
boundary holds a `LOAD_GLOBAL` whose operand indexes it, so names touched
only by other opcodes are never included — and the result is
duplicate-free, so repeated reads of one name contribute one element. -/
theorem claim_C7 (bc : List Nat) (names : List String) :
    (∀ s : String, s ∈ find_globals bc names ↔
      ∃ p ∈ instrStarts bc, bc.getD p 0 = LOAD_GLOBAL ∧
        names.getD (operandAt bc p) "" = s) ∧
    (find_globals bc names).Nodup :=
  ⟨fun s => find_globals_mem_iff bc names s, find_globals_nodup bc names⟩

/-- C8, refuted by the code: the walker does enqueue a same-module
old-style class, but `serialize_obj(self, obj)` never reads its `obj`
argument — it only drains the (empty) live queue — so every class member
is serialized as the empty node list instead of its value; on
deserialization each member therefore reconstructs to `None` rather than
to the member function.  New-style classes are not serialized at all
(`NotImplementedError`, `serializeF = none`). -/
theorem claim_C8 :
    serializeF ⟨[c8p, c8m], [c8C]⟩ 3 0 =
      Option.some [.func "pub" c8p.code "pub" [] [],
                   .oldclass "C" "C" "m" [] [("meth", [])]] ∧
    (deserializeF [.func "pub" c8p.code "pub" [] [],
                   .oldclass "C" "C" "m" [] [("meth", [])]] []).1.lookup "C" =
      Option.some (.oldcls "C" "m" [] [("meth", .lit .none)]) ∧
    serializeF ⟨[c8p, c8m], [c8Cn]⟩ 3 0 = Option.none := by
  exact ⟨rfl, rfl, rfl⟩

theorem encodeRows_length (h : Heap) :
    ∀ (rs : List (List Nat)) (rows : List (List Doc)),
      encodeRows h rs = Except.ok rows → rows.length = rs.length := by
  intro rs
  induction rs with
  | nil =>
    intro rows hok
    simp only [encodeRows] at hok
    injection hok with h1
    rw [← h1]
    rfl
  | cons r rs ih =>
    intro rows hok
    simp only [encodeRows] at hok
    split at hok
    · exact Except.noConfusion hok
    · split at hok
      · exact Except.noConfusion hok
      · next rows2 heq2 =>
        injection hok with h1
        rw [← h1]
        simp [ih rows2 heq2]

/-- C9: a `published.map` call whose input sequences zip to N argument
tuples, all of which encode successfully, issues EXACTLY ONE request —
whose body carries all N encoded rows in input order — and, whenever the
service answers one result row per input row, returns exactly N decoded
results, the i-th decoding the i-th response row. -/
theorem claim_C9 (svc : ReqBody → RespVal) (inputName : String)
    (cols : List String) (h : Heap) (args : List (List Nat))
    (rows : List (List Doc))
    (henc : encodeRows h (pyZip args) = Except.ok rows)
    (hresp : ∀ b : ReqBody, (svc b).values.length = b.values.length) :
    ∃ out reqs,
      pub_map svc inputName cols h args = Except.ok (out, reqs) ∧
      reqs = [{ inputName := inputName, columnNames := cols,
                values := rows }] ∧
      rows.length = (pyZip args).length ∧
      out.length = (pyZip args).length ∧
      out = (svc { inputName := inputName, columnNames := cols,
                   values := rows }).values.map (fun x => decodeInner x) := by
  have hlen := encodeRows_length h (pyZip args) rows henc
  refine ⟨_, _, ?_, rfl, hlen, ?_, rfl⟩
  · simp only [pub_map, henc, pub_invoke]
  · rw [List.length_map, hresp]
    exact hlen

theorem claim_C9_witness :
    (encodeRows [.int 1, .int 2] (pyZip [[0, 1]]) =
       Except.ok [[.scalar "int" "1"], [.scalar "int" "2"]] ∧
     ∀ b : ReqBody, (echoSvc b).values.length = b.values.length) ∧
    ∃ out reqs,
      pub_map echoSvc "input1" ["x"] [.int 1, .int 2] [[0, 1]] =
        Except.ok (out, reqs) ∧
      reqs = [{ inputName := "input1", columnNames := ["x"],
                values := [[.scalar "int" "1"], [.scalar "int" "2"]] }] ∧
      ([[Doc.scalar "int" "1"], [Doc.scalar "int" "2"]] :
        List (List Doc)).length = (pyZip [[0, 1]]).length ∧
      out.length = (pyZip [[0, 1]]).length ∧
      out = (echoSvc { inputName := "input1", columnNames := ["x"],
                       values := [[.scalar "int" "1"], [.scalar "int" "2"]]
        }).values.map (fun x => decodeInner x) :=
  ⟨⟨rfl, fun b => by simp [echoSvc]⟩,
   claim_C9 echoSvc "input1" ["x"] [.int 1, .int 2] [[0, 1]]
     [[.scalar "int" "1"], [.scalar "int" "2"]] rfl
     (fun b => by simp [echoSvc])⟩

/-! ## Claim C10 -/

/-- C10: the registered `'bool'` deserializer returns `True` iff the
payload string is exactly `'true'`; any other payload (including
`'True'`, `'false'`, `'garbage'`) silently decodes to `False` rather
than raising. -/
theorem claim_C10 :
    (∀ v : String, decodeInner (.scalar "bool" v) =
      Except.ok (.bool (v == "true"))) ∧
    decodeInner (.scalar "bool" "true") = Except.ok (.bool true) ∧
    decodeInner (.scalar "bool" "True") = Except.ok (.bool false) ∧
    decodeInner (.scalar "bool" "false") = Except.ok (.bool false) ∧
    decodeInner (.scalar "bool" "garbage") = Except.ok (.bool false) :=
  ⟨fun _ => rfl, rfl, rfl, rfl, rfl⟩

end AzureMLServices

